import Mathlib

/-!
Verification development for the HarmonyØ4 H4MK media container, its
reference compression engine, the multi-track GOP decode-chain resolver,
and the Living Cipher ratchet (v3).

Python sources are shallowly embedded: byte strings become `List Nat`
(each element a byte value), Python functions become Lean functions, and
functions that can raise become `Except`-valued.  Mutating functions on
the cipher state are embedded as state-passing functions that return the
final state together with the result, mirroring the fact that Python
mutations performed before a `raise` survive the exception.

External primitives used by the sources (hashlib's SHA-256, zlib's
CRC-32, and the `cryptography` package's HKDF) are implemented in full.
The AES-GCM AEAD and X25519 primitives of the `cryptography` package are
modelled (see `aesgcmEncrypt`, `x25519Exchange`); everything else is
translated directly from the repository's code.
-/

set_option maxRecDepth 1000000

namespace H4

abbrev Bytes := List Nat

deriving instance DecidableEq for Except

/-- mask for 32-bit words -/
def M32 : Nat := 4294967295

/-- rotate a 32-bit word right by `n` -/
def rotr (n x : Nat) : Nat :=
  ((x >>> n) ||| (x <<< (32 - n))) &&& M32

/-- big-endian value of a byte list (`struct.unpack` of BE integers) -/
def beNat (bs : Bytes) : Nat :=
  bs.foldl (fun acc b => acc * 256 + b) 0

/-- little-endian value of a byte list (`struct.unpack` of LE integers) -/
def leNat (bs : Bytes) : Nat :=
  bs.foldr (fun b acc => acc * 256 + b) 0

/-- 2-byte big-endian encoding, `struct.pack` with format `>H` -/
def u16be (n : Nat) : Bytes :=
  [n >>> 8 &&& 255, n &&& 255]

/-- 4-byte big-endian encoding, `struct.pack` with format `>I` -/
def u32be (n : Nat) : Bytes :=
  [n >>> 24 &&& 255, n >>> 16 &&& 255, n >>> 8 &&& 255, n &&& 255]

/-- 8-byte big-endian encoding, `struct.pack` with format `>Q` -/
def u64be (n : Nat) : Bytes :=
  [n >>> 56 &&& 255, n >>> 48 &&& 255, n >>> 40 &&& 255, n >>> 32 &&& 255,
   n >>> 24 &&& 255, n >>> 16 &&& 255, n >>> 8 &&& 255, n &&& 255]

/-- 2-byte little-endian encoding, `struct.pack` with format `<H` -/
def u16le (n : Nat) : Bytes :=
  [n &&& 255, n >>> 8 &&& 255]

/-- 4-byte little-endian encoding, `struct.pack` with format `<I` -/
def u32le (n : Nat) : Bytes :=
  [n &&& 255, n >>> 8 &&& 255, n >>> 16 &&& 255, n >>> 24 &&& 255]

/-- one bit step of the reflected CRC-32 used by `zlib.crc32` -/
def crc32Step (c : Nat) : Nat :=
  if c &&& 1 = 1 then (c >>> 1) ^^^ 0xEDB88320 else c >>> 1

/-- one byte step of CRC-32: xor the byte in, then eight bit steps -/
def crc32Byte (c b : Nat) : Nat :=
  crc32Step (crc32Step (crc32Step (crc32Step
    (crc32Step (crc32Step (crc32Step (crc32Step (c ^^^ b))))))))

/-- accumulator loop of CRC-32; matching the accumulator against the
Nat constructors keeps it in evaluated form step by step, which keeps
kernel reduction shallow without changing the function computed -/
def crc32Go : Nat → Bytes → Nat
  | c, [] => c
  | 0, b :: rest => crc32Go (crc32Byte 0 b) rest
  | c + 1, b :: rest => crc32Go (crc32Byte (c + 1) b) rest

/-- CRC-32 checksum as computed by `zlib.crc32(data) & 0xFFFFFFFF` -/
def crc32 (data : Bytes) : Nat :=
  crc32Go 0xFFFFFFFF data ^^^ 0xFFFFFFFF

/-- round constants of SHA-256 -/
def sha256K : List Nat :=
  [1116352408, 1899447441, 3049323471, 3921009573, 961987163, 1508970993, 2453635748, 2870763221,
   3624381080, 310598401, 607225278, 1426881987, 1925078388, 2162078206, 2614888103, 3248222580,
   3835390401, 4022224774, 264347078, 604807628, 770255983, 1249150122, 1555081692, 1996064986,
   2554220882, 2821834349, 2952996808, 3210313671, 3336571891, 3584528711, 113926993, 338241895,
   666307205, 773529912, 1294757372, 1396182291, 1695183700, 1986661051, 2177026350, 2456956037,
   2730485921, 2820302411, 3259730800, 3345764771, 3516065817, 3600352804, 4094571909, 275423344,
   430227734, 506948616, 659060556, 883997877, 958139571, 1322822218, 1537002063, 1747873779,
   1955562222, 2024104815, 2227730452, 2361852424, 2428436474, 2756734187, 3204031479, 3329325298]

/-- initial hash state of SHA-256 -/
def sha256H0 : List Nat :=
  [1779033703, 3144134277, 1013904242, 2773480762, 1359893119, 2600822924, 528734635, 1541459225]

/-- big-endian 32-bit words from bytes, four bytes at a time -/
def bytesToWords : Bytes → List Nat
  | b0 :: b1 :: b2 :: b3 :: rest => (((b0 * 256 + b1) * 256 + b2) * 256 + b3) :: bytesToWords rest
  | _ => []

/-- sigma0 of the SHA-256 message schedule -/
def smallSigma0 (x : Nat) : Nat := (rotr 7 x) ^^^ (rotr 18 x) ^^^ (x >>> 3)

/-- sigma1 of the SHA-256 message schedule -/
def smallSigma1 (x : Nat) : Nat := (rotr 17 x) ^^^ (rotr 19 x) ^^^ (x >>> 10)

/-- Sigma0 of the SHA-256 round function -/
def bigSigma0 (x : Nat) : Nat := (rotr 2 x) ^^^ (rotr 13 x) ^^^ (rotr 22 x)

/-- Sigma1 of the SHA-256 round function -/
def bigSigma1 (x : Nat) : Nat := (rotr 6 x) ^^^ (rotr 11 x) ^^^ (rotr 25 x)

/-- sliding window of the last sixteen schedule words -/
abbrev W16 := Nat × Nat × Nat × Nat × Nat × Nat × Nat × Nat ×
  Nat × Nat × Nat × Nat × Nat × Nat × Nat × Nat

/-- message-schedule extension: emit `n` further words from the window -/
def schedGo : Nat → W16 → List Nat
  | 0, _ => []
  | n + 1, (w0, w1, w2, w3, w4, w5, w6, w7, w8, w9, w10, w11, w12, w13, w14, w15) =>
      let nw := (smallSigma1 w14 + w9 + smallSigma0 w1 + w0) &&& M32
      nw :: schedGo n (w1, w2, w3, w4, w5, w6, w7, w8, w9, w10, w11, w12, w13, w14, w15, nw)

/-- full 64-word message schedule from the sixteen block words -/
def schedule (ws : List Nat) : List Nat :=
  match ws with
  | [w0, w1, w2, w3, w4, w5, w6, w7, w8, w9, w10, w11, w12, w13, w14, w15] =>
      ws ++ schedGo 48 (w0, w1, w2, w3, w4, w5, w6, w7, w8, w9, w10, w11, w12, w13, w14, w15)
  | _ => ws

/-- choice function of SHA-256 (not over a two's complement negation) -/
def chF (e f g : Nat) : Nat := (e &&& f) ^^^ ((e ^^^ M32) &&& g)

/-- majority function of SHA-256 -/
def majF (a b c : Nat) : Nat := (a &&& b) ^^^ (a &&& c) ^^^ (b &&& c)

/-- one SHA-256 round on the eight-word state -/
def roundStep (st : Nat × Nat × Nat × Nat × Nat × Nat × Nat × Nat) (kw : Nat × Nat) :
    Nat × Nat × Nat × Nat × Nat × Nat × Nat × Nat :=
  let (a, b, c, d, e, f, g, h) := st
  let t1 := (h + bigSigma1 e + chF e f g + kw.1 + kw.2) &&& M32
  let t2 := (bigSigma0 a + majF a b c) &&& M32
  ((t1 + t2) &&& M32, a, b, c, (d + t1) &&& M32, e, f, g)

/-- SHA-256 compression of one 64-byte block into the hash state -/
def compressBlock (h : List Nat) (block : Bytes) : List Nat :=
  let w := schedule (bytesToWords block)
  let init : Nat × Nat × Nat × Nat × Nat × Nat × Nat × Nat :=
    (h.getD 0 0, h.getD 1 0, h.getD 2 0, h.getD 3 0, h.getD 4 0, h.getD 5 0, h.getD 6 0, h.getD 7 0)
  let (a, b, c, d, e, f, g, hh) := (sha256K.zip w).foldl roundStep init
  [(h.getD 0 0 + a) &&& M32, (h.getD 1 0 + b) &&& M32, (h.getD 2 0 + c) &&& M32,
   (h.getD 3 0 + d) &&& M32, (h.getD 4 0 + e) &&& M32, (h.getD 5 0 + f) &&& M32,
   (h.getD 6 0 + g) &&& M32, (h.getD 7 0 + hh) &&& M32]

/-- SHA-256 padding: append 0x80, zeros, and the 64-bit bit length -/
def padMsg (msg : Bytes) : Bytes :=
  let l := msg.length
  let zeros := (64 - ((l + 9) % 64)) % 64
  msg ++ [128] ++ List.replicate zeros 0 ++ u64be (8 * l)

/-- split a byte list into 64-byte blocks (fueled, fuel bounds the count) -/
def blocksGo : Nat → Bytes → List Bytes
  | 0, _ => []
  | _, [] => []
  | fuel + 1, bs => bs.take 64 :: blocksGo fuel (bs.drop 64)

/-- serialize the eight-word hash state big-endian -/
def wordsToBytes : List Nat → Bytes
  | [] => []
  | w :: rest =>
      (w >>> 24 &&& 255) :: (w >>> 16 &&& 255) :: (w >>> 8 &&& 255) :: (w &&& 255) ::
        wordsToBytes rest

/-- SHA-256 digest, as `hashlib.sha256(msg).digest()` -/
def sha256 (msg : Bytes) : Bytes :=
  let padded := padMsg msg
  wordsToBytes ((blocksGo padded.length padded).foldl compressBlock sha256H0)

/-- map every byte through xor with a constant (used for the HMAC pads) -/
def xorEach (k : Bytes) (c : Nat) : Bytes :=
  k.map (fun b => b ^^^ c)

/-- HMAC-SHA-256 of a message under a key -/
def hmacSha256 (key msg : Bytes) : Bytes :=
  let k0 := if key.length > 64 then sha256 key else key
  let kPad := k0 ++ List.replicate (64 - k0.length) 0
  sha256 (xorEach kPad 0x5c ++ sha256 (xorEach kPad 0x36 ++ msg))

/-- HKDF-expand blocks: T(i+1) = HMAC(prk, T(i) ++ info ++ [i+1]) -/
def hkdfExpandGo (prk info : Bytes) : Nat → Nat → Bytes → Bytes
  | 0, _, _ => []
  | n + 1, i, prev =>
      let t := hmacSha256 prk (prev ++ info ++ [i])
      t ++ hkdfExpandGo prk info n (i + 1) t

/-- HKDF-SHA-256 with `salt=None` (a zero salt of hash length), as the
`cryptography` package's `HKDF(...).derive(key_material)` used by
`crypto/living_cipher.py` and `utils/crypto.py` -/
def hkdf (keyMaterial info : Bytes) (length : Nat) : Bytes :=
  let prk := hmacSha256 (List.replicate 32 0) keyMaterial
  (hkdfExpandGo prk info ((length + 31) / 32) 1 []).take length

/-! Byte constants: ASCII tags and context strings used by the sources. -/

def magicH4MK : Bytes := [72, 52, 77, 75]
def tagCORE : Bytes := [67, 79, 82, 69]
def tagSEEK : Bytes := [83, 69, 69, 75]
def tagMETA : Bytes := [77, 69, 84, 65]
def tagSAFE : Bytes := [83, 65, 70, 69]
def tagVERI : Bytes := [86, 69, 82, 73]

/-!
Reference compression engine, from `src/compression/geo_ref.py`.
`load_engine()` (in `src/compression/__init__.py`) resolves to this engine
whenever the `HARMONY4_CORE_PATH` environment variable is unset, which is
the configuration embedded here.
-/

/-- count of further leading bytes equal to `v`, capped so that the total
run length (this count plus one) never exceeds 255; mirrors the inner
`while` of `compress_rle_delta` -/
def countEq (v : Nat) : Bytes → Nat → Nat
  | [], _ => 0
  | _, 0 => 0
  | b :: rest, c + 1 => if b = v then 1 + countEq v rest c else 0

/-- main loop of `compress_rle_delta`; the fuel argument bounds the number
of runs and `data.length` is always enough since every run is non-empty -/
def compressRleGo : Nat → Bytes → Bytes
  | 0, _ => []
  | _, [] => []
  | fuel + 1, v :: rest =>
      let c := countEq v rest 254
      v :: (1 + c) :: compressRleGo fuel (rest.drop c)

/-- run-length encoding `compress_rle_delta` of `src/compression/geo_ref.py` -/
def compress_rle_delta (data : Bytes) : Bytes :=
  if data.isEmpty then [] else compressRleGo data.length data

/-- pair loop of `decompress_rle_delta`; `none` models the `IndexError`
that Python would raise on an odd-length input -/
def decompressRleGo : Bytes → Option Bytes
  | [] => some []
  | [_] => none
  | v :: r :: rest => (decompressRleGo rest).map (fun t => List.replicate r v ++ t)

/-- inverse `decompress_rle_delta` of `src/compression/geo_ref.py` -/
def decompress_rle_delta (data : Bytes) : Option Bytes :=
  if data.isEmpty then some [] else decompressRleGo data

/-- `GeometricReferenceCompressor.compress`: refuses input whose length is
not a multiple of 256 -/
def geoCompress (data : Bytes) : Except String Bytes :=
  if data.length = 0 then .ok []
  else if data.length % 256 ≠ 0 then .error "Data length must be multiple of 256"
  else .ok (compress_rle_delta data)

/-- `GeometricReferenceCompressor.decompress`: refuses odd-length input -/
def geoDecompress (data : Bytes) : Except String Bytes :=
  if data.isEmpty then .ok []
  else if data.length % 2 ≠ 0 then .error "Compressed data length must be even"
  else
    match decompress_rle_delta data with
    | some r => .ok r
    | none => .error "IndexError"

/-!
Compact JSON serialization, modelling `json.dumps(obj, separators=(",", ":"),
ensure_ascii=False).encode("utf-8")` as used by `pack_meta` in
`src/container/h4mk.py`.  Only the value shapes the container code stores
are embedded (UTF-8 strings without characters that need escaping,
booleans, and nested objects); dictionaries keep Python's insertion order.
-/

mutual
inductive Jv where
  | jstr (s : Bytes)
  | jbool (b : Bool)
  | jobj (fs : Jfields)
inductive Jfields where
  | nil
  | cons (k : Bytes) (v : Jv) (rest : Jfields)
end

mutual
/-- serialize one JSON value (compact form) -/
def jser : Jv → Bytes
  | .jstr s => 34 :: (s ++ [34])
  | .jbool true => [116, 114, 117, 101]
  | .jbool false => [102, 97, 108, 115, 101]
  | .jobj fs => 123 :: (jfs fs ++ [125])
/-- serialize the fields of a JSON object, comma separated -/
def jfs : Jfields → Bytes
  | .nil => []
  | .cons k v .nil => (34 :: (k ++ [34, 58])) ++ jser v
  | .cons k v rest => ((34 :: (k ++ [34, 58])) ++ jser v ++ [44]) ++ jfs rest
end

/-- membership of a key in a JSON object field list -/
def jHasKey (k : Bytes) : Jfields → Bool
  | .nil => false
  | .cons k0 _ rest => if k0 = k then true else jHasKey k rest

/-- Python dict assignment `d[k] = v`: replace in place when the key
exists, append otherwise -/
def jSet (fs : Jfields) (k : Bytes) (v : Jv) : Jfields :=
  match fs with
  | .nil => .cons k v .nil
  | .cons k0 v0 rest => if k0 = k then .cons k0 v rest else .cons k0 v0 (jSet rest k v)

/-!
Container writer, from `src/container/h4mk.py`.
-/

/-- `Chunk.pack`: TAG + u32 BE length + u32 BE CRC-32 of the payload + payload -/
def chunkPack (tag payload : Bytes) : Bytes :=
  tag ++ u32be payload.length ++ u32be (crc32 payload) ++ payload

/-- `pack_seek_entries`: u32 BE count, then (u64 BE pts, u64 BE offset) pairs -/
def pack_seek_entries (entries : List (Nat × Nat)) : Bytes :=
  u32be entries.length ++ entries.foldr (fun e acc => u64be e.1 ++ u64be e.2 ++ acc) []

/-- `pack_meta`: compact JSON of a dict -/
def pack_meta (meta : Jfields) : Bytes :=
  jser (.jobj meta)

/-- JSON keys of the compression seal injected by `build_h4mk` -/
def kCompression : Bytes := [99, 111, 109, 112, 114, 101, 115, 115, 105, 111, 110]
def kEngine : Bytes := [101, 110, 103, 105, 110, 101]
def kEngineId : Bytes := [101, 110, 103, 105, 110, 101, 95, 105, 100]
def kFingerprint : Bytes := [102, 105, 110, 103, 101, 114, 112, 114, 105, 110, 116]
def kDeterministic : Bytes := [100, 101, 116, 101, 114, 109, 105, 110, 105, 115, 116, 105, 99]
def kIdentitySafe : Bytes := [105, 100, 101, 110, 116, 105, 116, 121, 95, 115, 97, 102, 101]
def kOpq : Bytes := [111, 112, 97, 113, 117, 101]
def kSealed : Bytes := [115, 101, 97, 108, 101, 100]
def vGeoRef : Bytes := [103, 101, 111, 109, 101, 116, 114, 105, 99, 45, 114, 101, 102, 101, 114, 101, 110, 99, 101]
def vUnknown : Bytes := [117, 110, 107, 110, 111, 119, 110]

/-- compression metadata `meta["compression"]` as `build_h4mk` assembles it
from the reference engine's `info()` (whose dict lacks `engine_id`,
`fingerprint`, `opaque` and `sealed`, so the `.get` defaults apply) -/
def compressionSeal : Jv :=
  .jobj (.cons kEngine (.jstr vGeoRef)
    (.cons kEngineId (.jstr vUnknown)
      (.cons kFingerprint (.jstr vUnknown)
        (.cons kDeterministic (.jbool true)
          (.cons kIdentitySafe (.jbool true)
            (.cons kOpq (.jbool false)
              (.cons kSealed (.jbool false) .nil)))))))

/-- compress every CORE block with the loaded engine, failing like Python
when a block violates the engine's alignment precondition -/
def compressBlocks : List Bytes → Except String (List Bytes)
  | [] => .ok []
  | b :: rest => do
      let cb ← geoCompress b
      let others ← compressBlocks rest
      .ok (cb :: others)

/-- `build_h4mk` of `src/container/h4mk.py`: CORE chunks (compressed),
SEEK, META (with the compression seal injected), SAFE, then a VERI chunk
whose payload is the SHA-256 of the packed bytes of all prior chunks -/
def build_h4mk (core_blocks : List Bytes) (seek_entries : List (Nat × Nat))
    (meta safe : Jfields) : Except String Bytes := do
  let cbs ← compressBlocks core_blocks
  let chunks :=
    cbs.map (fun cb => (tagCORE, cb)) ++
    [(tagSEEK, pack_seek_entries seek_entries),
     (tagMETA, pack_meta (jSet meta kCompression compressionSeal)),
     (tagSAFE, pack_meta safe)]
  let pre_veri := (chunks.map (fun c => chunkPack c.1 c.2)).flatten
  let veri_payload := sha256 pre_veri
  let body := pre_veri ++ chunkPack tagVERI veri_payload
  .ok (magicH4MK ++ u16be 1 ++ u16be 0 ++ body)

/-!
Container reader, from `src/container/reader.py`.
-/

/-- parse failure kinds of `H4MKReader._parse` (one per `raise` site) -/
inductive RErr where
  | tooShort
  | badMagic
  | badVersion
  | chunkTooLong
  | crcMismatch
deriving DecidableEq

/-- metadata about one parsed chunk, as `ChunkInfo` of the reader
(`offset` is the payload offset in the container, `size` its length) -/
structure CInfo where
  tag : Bytes
  offset : Nat
  size : Nat
  crc : Nat
deriving DecidableEq

/-- chunk-stream loop of `H4MKReader._parse`; the fuel argument only
bounds the iteration count and `data.length + 1` is always sufficient
because every chunk consumes at least twelve bytes -/
def parseChunksGo (data : Bytes) : Nat → Nat → Except RErr (List CInfo)
  | 0, _ => .error .tooShort
  | fuel + 1, pos =>
      if pos ≥ data.length then .ok []
      else if pos + 12 > data.length then .ok []
      else
        let tag := (data.drop pos).take 4
        let size := beNat ((data.drop (pos + 4)).take 4)
        let crc := beNat ((data.drop (pos + 8)).take 4)
        let payloadOffset := pos + 12
        if payloadOffset + size > data.length then .error .chunkTooLong
        else
          let payload := (data.drop payloadOffset).take size
          if crc32 payload ≠ crc then .error .crcMismatch
          else do
            let rest ← parseChunksGo data fuel (payloadOffset + size)
            .ok ({ tag := tag, offset := payloadOffset, size := size, crc := crc } :: rest)

/-- `H4MKReader._parse` (run by `H4MKReader.__init__`): header checks and
the CRC-verified chunk stream; an error models the constructor raising,
in which case no reader object (and hence no chunk) is ever exposed -/
def readerParse (data : Bytes) : Except RErr (List CInfo) :=
  if data.length < 8 then .error .tooShort
  else if data.take 4 ≠ magicH4MK then .error .badMagic
  else if beNat ((data.drop 4).take 2) ≠ 1 then .error .badVersion
  else parseChunksGo data (data.length + 1) 8

/-- `H4MKReader.get_chunks`: payload slices of all chunks with a tag, in
parse order (Python's per-tag lists preserve insertion order) -/
def getChunks (data : Bytes) (infos : List CInfo) (tag : Bytes) : List Bytes :=
  (infos.filter (fun c => c.tag = tag)).map (fun c => (data.drop c.offset).take c.size)

/-- `H4MKReader.verify_integrity`: accept when no VERI chunk is present;
otherwise compare the first VERI payload against the SHA-256 of the
payload bytes of the CORE, SEEK, META and SAFE chunks in that tag order -/
def verify_integrity (data : Bytes) (infos : List CInfo) : Bool :=
  match getChunks data infos tagVERI with
  | [] => true
  | veri :: _ =>
      if veri.length ≠ 32 then false
      else
        let hashed := ([tagCORE, tagSEEK, tagMETA, tagSAFE].map
          (fun t => (getChunks data infos t).flatten)).flatten
        veri = sha256 hashed

/-- parse a container and run `verify_integrity` on the result -/
def readerVerify (data : Bytes) : Except RErr Bool := do
  let infos ← readerParse data
  .ok (verify_integrity data infos)

/-- a chunk as stored on the wire: tag, stored CRC (which may or may not
match the payload), payload -/
structure SChunk where
  tag : Bytes
  crc : Nat
  payload : Bytes
deriving DecidableEq

/-- wire bytes of a stored chunk: tag, u32 BE length, u32 BE stored CRC,
payload (the layout `Chunk.pack` emits and `_parse` consumes) -/
def packStored (c : SChunk) : Bytes :=
  c.tag ++ u32be c.payload.length ++ u32be c.crc ++ c.payload

/-- concatenated wire bytes of a chunk sequence -/
def chunkStream (chunks : List SChunk) : Bytes :=
  (chunks.map packStored).flatten

/-- the `ChunkInfo` list that parsing a stored chunk sequence starting at
a byte offset produces -/
def infosOf : Nat → List SChunk → List CInfo
  | _, [] => []
  | pos, c :: rest =>
      { tag := c.tag, offset := pos + 12, size := c.payload.length, crc := c.crc } ::
        infosOf (pos + 12 + c.payload.length) rest

/-- a container with a valid 8-byte header (version 1), a stored chunk
sequence, and trailing bytes -/
def mkContainerS (r : Nat) (chunks : List SChunk) (trailing : Bytes) : Bytes :=
  magicH4MK ++ u16be 1 ++ u16be r ++ (chunkStream chunks ++ trailing)

/-- well-formedness of stored chunks: 4-byte tag and in-range u32 fields -/
def SWf (chunks : List SChunk) : Prop :=
  ∀ c ∈ chunks, c.tag.length = 4 ∧ c.crc < 2 ^ 32 ∧ c.payload.length < 2 ^ 32

/-- container of the C10 counterexample: a valid header followed by
eleven stray zero bytes, which the parser silently ignores -/
def c10C : Bytes := magicH4MK ++ u16be 1 ++ u16be 0 ++ List.replicate 11 0

/-!
Seek lookups.  Three implementations exist in the sources; all operate on
a list of `(pts, value)` pairs.
-/

/-- binary-search loop of `H4MKReader.seek_to_pts` (`src/container/reader.py`):
track the last entry whose pts was at or below the target; the bounds are
integers because `right` can fall to -1; the fuel bounds the iteration
count and `table.length + 2` is always sufficient since `right - left`
strictly decreases -/
def seekPtsGo (table : List (Nat × Nat)) (target : Nat) :
    Nat → Int → Int → Option (Nat × Nat) → Option (Nat × Nat)
  | 0, _, _, res => res
  | fuel + 1, l, r, res =>
      if l ≤ r then
        let mid := (l + r) / 2
        let e := table.getD mid.toNat (0, 0)
        if e.1 ≤ target then seekPtsGo table target fuel (mid + 1) r (some e)
        else seekPtsGo table target fuel l (mid - 1) res
      else res

/-- `H4MKReader.seek_to_pts` on a parsed seek table -/
def seek_to_pts (table : List (Nat × Nat)) (target : Nat) : Option (Nat × Nat) :=
  if table.isEmpty then none
  else seekPtsGo table target (table.length + 2) 0 ((table.length : Int) - 1) none

/-- binary-search loop of `SeekTable.seek` (`src/container/seek.py`):
identical search but tracking the best index instead of the entry -/
def seekTableGo (entries : List (Nat × Nat)) (pts : Nat) :
    Nat → Int → Int → Int → Int
  | 0, _, _, best => best
  | fuel + 1, lo, hi, best =>
      if lo ≤ hi then
        let mid := (lo + hi) / 2
        let e := entries.getD mid.toNat (0, 0)
        if e.1 ≤ pts then seekTableGo entries pts fuel (mid + 1) hi mid
        else seekTableGo entries pts fuel lo (mid - 1) best
      else best

/-- `SeekTable.seek` of `src/container/seek.py` on a finalized entry list -/
def seekTableSeek (entries : List (Nat × Nat)) (pts : Nat) : Option (Nat × Nat) :=
  if entries.isEmpty then none
  else
    let best := seekTableGo entries pts (entries.length + 2) 0 ((entries.length : Int) - 1) (-1)
    if best ≥ 0 then some (entries.getD best.toNat (0, 0)) else none

/-- linear loop of the `/video/seek_to_block` endpoint
(`src/api/video_tracks.py`): walk the entries, remembering the last one
at or below the target, stopping at the first one above it -/
def chooseGo (pts : Nat) : List (Nat × Nat) → (Nat × Nat) → (Nat × Nat)
  | [], c => c
  | e :: rest, c => if e.1 ≤ pts then chooseGo pts rest e else c

/-- `seek_to_block` of `src/api/video_tracks.py`, reduced to its seek
logic: `none` models the `found: False` response returned for an empty
entry list, `some chosen` the `found: True` response carrying
`(keyframe_pts_us, core_index)`; note `chosen` starts at `entries[0]` -/
def seek_to_block (entries : List (Nat × Nat)) (pts : Nat) : Option (Nat × Nat) :=
  match entries with
  | [] => none
  | e0 :: _ => some (chooseGo pts entries e0)

/-!
Multi-track container, from `src/harmony4_media/mux/h4mk_multitrack.py`,
`src/harmony4_media/mux/h4mk.py` and `src/harmony4_media/mux/gop_flags.py`.

A container is embedded at the level of `parse()`'s output: a list of
chunks (type, flags, payload).  The byte offsets that `parse` assigns as
`ChunkInfo.index` are recomputed faithfully: the file header occupies 16
bytes and every chunk occupies 12 header bytes, its payload, and 4 CRC
bytes, the payload starting 12 bytes into the chunk.  `extract` looks a
payload up by that offset, as the source does by re-parsing.
-/

def tagTSEK : Bytes := [84, 83, 69, 75]
def magicH4TB : Bytes := [72, 52, 84, 66]
def magicH4TS : Bytes := [72, 52, 84, 83]
def magicH4SK : Bytes := [72, 52, 83, 75]

/-- one chunk of a multi-track container (type, flags, payload) -/
structure MChunk where
  ctype : Bytes
  flags : Nat
  payload : Bytes
deriving DecidableEq

/-- parsed chunk metadata, as `ChunkInfo` of `harmony4_media/mux/h4mk.py`
(`index` is the byte offset of the payload) with the payload attached in
place of re-slicing the container bytes -/
structure MInfo where
  ctype : Bytes
  flags : Nat
  index : Nat
  payload : Bytes
deriving DecidableEq

/-- offset-assigning pass of `parse` -/
def minfosGo (pos : Nat) : List MChunk → List MInfo
  | [] => []
  | c :: rest =>
      { ctype := c.ctype, flags := c.flags, index := pos + 12, payload := c.payload } ::
        minfosGo (pos + 12 + c.payload.length + 4) rest

/-- chunk infos of a container, as returned by `parse` -/
def minfos (cs : List MChunk) : List MInfo := minfosGo 16 cs

/-- `extract`: look a chunk payload up by its byte offset (offsets are
strictly increasing, so the first match is the only match) -/
def extractAt (cs : List MChunk) (idx : Nat) : Except String Bytes :=
  match (minfos cs).find? (fun i => i.index = idx) with
  | some i => .ok i.payload
  | none => .error "no chunk at index"

/-- PTS mask of `gop_flags.py`: bits 0..27 -/
def PTS_MASK : Nat := (1 <<< 28) - 1

/-- `parse_flags`: decode `(pts_ms, blk_type)` from a flags word;
block type 0 is I, 1 is P, 2 is B -/
def parse_flags (flags : Nat) : Nat × Nat :=
  (flags &&& PTS_MASK, (flags &&& (3 <<< 28)) >>> 28)

/-- `make_flags`: encode pts and block type (validation omitted here;
only `parse_flags` is needed by the embedded readers) -/
def make_flags (pts blkType : Nat) : Nat :=
  (pts &&& PTS_MASK) ||| ((blkType &&& 3) <<< 28)

/-- `unwrap_core_payload`: strip the H4TB routing wrapper, yielding the
track id (u16 LE) and the opaque blob; errors model the magic-check
`ValueError` and the `struct.unpack` failure on a short payload -/
def unwrap_core_payload (payload : Bytes) : Except String (Nat × Bytes) :=
  if payload.take 4 ≠ magicH4TB then .error "not a track-bound CORE payload"
  else if payload.length < 8 then .error "struct"
  else .ok (leNat ((payload.drop 4).take 2), payload.drop 8)

/-- entry loop of `parse_seek_table`; reads `count` pairs of u32 LE
values, failing like `struct.unpack` when the data runs short -/
def parseSeekGo (data : Bytes) : Nat → Nat → Except String (List (Nat × Nat))
  | 0, _ => .ok []
  | n + 1, off =>
      if data.length < off + 8 then .error "struct"
      else do
        let rest ← parseSeekGo data n (off + 8)
        .ok ((leNat ((data.drop off).take 4), leNat ((data.drop (off + 4)).take 4)) :: rest)

/-- `parse_seek_table` of `harmony4_media/mux/h4mk.py` -/
def parse_seek_table (data : Bytes) : Except String (List (Nat × Nat)) :=
  if data.take 4 ≠ magicH4SK then .error "invalid seek table magic"
  else if data.length < 8 then .error "struct"
  else parseSeekGo data (leNat ((data.drop 4).take 2)) 8

/-- association-list lookup (Python `dict.get`) -/
def alLookup {α : Type} : List (Nat × α) → Nat → Option α
  | [], _ => none
  | (k0, v0) :: rest, k => if k0 = k then some v0 else alLookup rest k

/-- association-list update (Python `d[k] = v`): overwrite in place when
the key exists, append otherwise -/
def alSet {α : Type} : List (Nat × α) → Nat → α → List (Nat × α)
  | [], k, v => [(k, v)]
  | (k0, v0) :: rest, k, v =>
      if k0 = k then (k0, v) :: rest else (k0, v0) :: alSet rest k v

/-- loop of `_read_track_seek_tables`: collect per-track seek tables from
TSEK chunks; chunks without the H4TS magic are skipped, later tables for
the same track overwrite earlier ones -/
def readTsekGo : List MInfo → List (Nat × List (Nat × Nat)) →
    Except String (List (Nat × List (Nat × Nat)))
  | [], out => .ok out
  | ci :: rest, out =>
      if ci.ctype ≠ tagTSEK then readTsekGo rest out
      else if ci.payload.take 4 ≠ magicH4TS then readTsekGo rest out
      else if ci.payload.length < 8 then .error "struct"
      else do
        let entries ← parse_seek_table (ci.payload.drop 8)
        readTsekGo rest (alSet out (leNat ((ci.payload.drop 4).take 2)) entries)

/-- `_read_track_seek_tables` of `h4mk_multitrack.py` -/
def read_track_seek_tables (cs : List MChunk) :
    Except String (List (Nat × List (Nat × Nat))) :=
  readTsekGo (minfos cs) []

/-- binary-search loop of `find_keyframe_for_time`: rightmost entry with
pts at or below the target, remembering its chunk index -/
def fkSearchGo (entries : List (Nat × Nat)) (t : Nat) :
    Nat → Int → Int → Option Nat → Option Nat
  | 0, _, _, best => best
  | fuel + 1, lo, hi, best =>
      if lo ≤ hi then
        let mid := (lo + hi) / 2
        let e := entries.getD mid.toNat (0, 0)
        if e.1 ≤ t then fkSearchGo entries t fuel (mid + 1) hi (some e.2)
        else fkSearchGo entries t fuel lo (mid - 1) best
      else best

/-- fallback scan of `find_keyframe_for_time`: the last CORE chunk of the
track that is an I-block with pts at or below the target -/
def fkScanGo (tid t : Nat) : List MInfo → Option Nat → Except String (Option Nat)
  | [], best => .ok best
  | ci :: rest, best =>
      if ci.ctype ≠ tagCORE then fkScanGo tid t rest best
      else do
        let (ctid, _) ← unwrap_core_payload ci.payload
        let (pts, bt) := parse_flags ci.flags
        if ctid ≠ tid then fkScanGo tid t rest best
        else if bt = 0 ∧ pts ≤ t then fkScanGo tid t rest (some ci.index)
        else fkScanGo tid t rest best

/-- `find_keyframe_for_time` of `h4mk_multitrack.py` -/
def find_keyframe_for_time (cs : List MChunk) (tid t : Nat) :
    Except String (Option Nat) := do
  let seeks ← read_track_seek_tables cs
  match alLookup seeks tid with
  | some es =>
      if es.isEmpty then fkScanGo tid t (minfos cs) none
      else .ok (fkSearchGo es t (es.length + 2) 0 ((es.length : Int) - 1) none)
  | none => fkScanGo tid t (minfos cs) none

/-- collection loop of `get_decode_chain`: subsequent CORE blocks of the
track, stopping at the next I-block or the first pts above the target -/
def chainGo (tid t : Nat) : List MInfo → Except String (List Nat)
  | [] => .ok []
  | ci :: rest =>
      if ci.ctype ≠ tagCORE then chainGo tid t rest
      else do
        let (ctid, _) ← unwrap_core_payload ci.payload
        let (pts, bt) := parse_flags ci.flags
        if ctid ≠ tid then chainGo tid t rest
        else if bt = 0 then .ok []
        else if pts > t then .ok []
        else do
          let l ← chainGo tid t rest
          .ok (ci.index :: l)

/-- position of the chunk with a given byte offset in the parsed list
(`pos_map`); offsets are strictly increasing so the first match is the
only one -/
def posOf (infos : List MInfo) (idx : Nat) : Option Nat :=
  match infos with
  | [] => none
  | ci :: rest => if ci.index = idx then some 0 else (posOf rest idx).map (· + 1)

/-- `get_decode_chain` of `h4mk_multitrack.py` -/
def get_decode_chain (cs : List MChunk) (tid t : Nat) :
    Except String (List Nat) := do
  let infos := minfos cs
  let iIdx ← find_keyframe_for_time cs tid t
  match iIdx with
  | none => .ok []
  | some i =>
      match posOf infos i with
      | none => .ok [i]
      | some startPos => do
          let l ← chainGo tid t (infos.drop (startPos + 1))
          .ok (i :: l)

/-- track id recorded in a CORE payload wrapper (none when unwrapping
would raise) -/
def trackOfB (info : MInfo) : Option Nat :=
  (unwrap_core_payload info.payload).toOption.map Prod.fst

/-- pts of a chunk, decoded from its flags -/
def infoPts (info : MInfo) : Nat := (parse_flags info.flags).1

/-- block type of a chunk, decoded from its flags (0 is I) -/
def infoKind (info : MInfo) : Nat := (parse_flags info.flags).2

/-- tests whether a parsed chunk is an I-block of the given track -/
def infoIsI (info : MInfo) (tid : Nat) : Bool :=
  info.ctype == tagCORE && infoKind info == 0 && trackOfB info == some tid

/-- a keyframe of the track exists at or before the target time -/
def KeyframeExists (cs : List MChunk) (tid t : Nat) : Prop :=
  ∃ info ∈ minfos cs, infoIsI info tid = true ∧ infoPts info ≤ t

/-- every CORE chunk in the list carries a valid H4TB track wrapper -/
def coreUnwrapOk (l : List MInfo) : Prop :=
  ∀ info ∈ l, info.ctype = tagCORE → (unwrap_core_payload info.payload).isOk = true

/-- a seek table is exact for a track: sorted by pts, every entry points
at an I-block of the track with the recorded pts, and every I-block of
the track has an entry -/
def exactSeekFor (cs : List MChunk) (tid : Nat) (es : List (Nat × Nat)) : Prop :=
  List.Pairwise (fun a b => a.1 ≤ b.1) es ∧
  (∀ e ∈ es, ∃ info ∈ minfos cs, info.index = e.2 ∧ infoIsI info tid = true ∧
    infoPts info = e.1) ∧
  (∀ info ∈ minfos cs, infoIsI info tid = true → (infoPts info, info.index) ∈ es)

/-- well-indexed container (for a track): CORE payloads are track-wrapped,
the seek tables parse, and the track's seek table — when present and
non-empty — is exact and sorted; this is what `mux_multitrack_gop`
produces -/
def WellIndexed (cs : List MChunk) (tid : Nat) : Prop :=
  coreUnwrapOk (minfos cs) ∧
  ∃ m, read_track_seek_tables cs = .ok m ∧
    (alLookup m tid = none ∨ ∃ es, alLookup m tid = some es ∧
      (es = [] ∨ exactSeekFor cs tid es))

/-- an 8-byte H4TB wrapper for track 0 with an empty opaque blob -/
def wrapT0 : Bytes := magicH4TB ++ u16le 0 ++ u16le 0

/-- container whose TSEK table lies: its only entry points at chunk
offset 28, which holds a P-block, although a true I-block of track 0
(offset 52, pts 0) exists -/
def c4Bad : List MChunk :=
  [⟨tagCORE, make_flags 0 1, wrapT0⟩,
   ⟨tagCORE, make_flags 0 0, wrapT0⟩,
   ⟨tagTSEK, 0, magicH4TS ++ u16le 0 ++ u16le 0 ++
     (magicH4SK ++ u16le 1 ++ u16le 0 ++ u32le 0 ++ u32le 28)⟩]

/-- well-indexed container: I-block of track 0 at offset 28 (pts 0),
P-block at offset 52 (pts 5), and an exact seek table -/
def c4Good : List MChunk :=
  [⟨tagCORE, make_flags 0 0, wrapT0⟩,
   ⟨tagCORE, make_flags 5 1, wrapT0⟩,
   ⟨tagTSEK, 0, magicH4TS ++ u16le 0 ++ u16le 0 ++
     (magicH4SK ++ u16le 1 ++ u16le 0 ++ u32le 0 ++ u32le 28)⟩]

/-!
Living Cipher v3, from `src/crypto/living_cipher.py`.

Python byte-string mutations survive a `raise`, so `lcEncrypt` and
`lcDecrypt` always return the final state next to the `Except` result.
UTF-8 strings (the suite identifier) are embedded as their byte
encodings.
-/

def magicH4LC3 : Bytes := [72, 52, 76, 67, 51]
def suiteV3 : Bytes :=
  [72, 52, 45, 76, 73, 86, 73, 78, 71, 45, 65, 69, 83, 71, 67, 77, 45,
   72, 75, 68, 70, 45, 83, 72, 65, 50, 53, 54, 45, 118, 51]
def ctxDefault : Bytes :=
  [72, 97, 114, 109, 111, 110, 121, 195, 152, 52, 124, 76, 105, 118, 105,
   110, 103, 67, 105, 112, 104, 101, 114, 124, 118, 51]
def ratchetSuffix : Bytes := [124, 114, 97, 116, 99, 104, 101, 116]
def ckSuffix : Bytes := [124, 99, 107, 124]
def mkSuffix : Bytes := [124, 109, 107, 124]
def nonceInfoPre : Bytes := [110, 111, 110, 99, 101, 124]
def rootSuffix : Bytes := [124, 114, 111, 111, 116]
def ckSendSuffix : Bytes := [124, 99, 107, 95, 115, 101, 110, 100]
def ckRecvSuffix : Bytes := [124, 99, 107, 95, 114, 101, 99, 118]
def rootMixSuffix : Bytes := [124, 114, 111, 111, 116, 95, 109, 105, 120]

/-- Modelled from the spec: the AES-256-GCM tag of the external
`cryptography` package (not part of this repository).  The model makes
the tag a deterministic 16-byte digest of key, nonce, lengths, plaintext
and additional data, which captures the AEAD contract the sources rely
on: decryption under the same key, nonce and AAD recovers the plaintext,
and a tag mismatch is rejected. -/
def aesgcmTag (key nonce pt ad : Bytes) : Bytes :=
  (sha256 (key ++ nonce ++ u64be pt.length ++ u64be ad.length ++ pt ++ ad)).take 16

/-- Modelled from the spec: `AESGCM(key).encrypt(nonce, pt, ad)` returns
the message body followed by the 16-byte tag. -/
def aesgcmEncrypt (key nonce pt ad : Bytes) : Bytes :=
  pt ++ aesgcmTag key nonce pt ad

/-- Modelled from the spec: `AESGCM(key).decrypt(nonce, ct, ad)` splits
the body from the 16-byte tag, recomputes the tag and rejects on
mismatch (`none` models the `InvalidTag` exception). -/
def aesgcmDecrypt (key nonce ct ad : Bytes) : Option Bytes :=
  if ct.length < 16 then none
  else
    let body := ct.take (ct.length - 16)
    let tag := ct.drop (ct.length - 16)
    if tag = aesgcmTag key nonce body ad then some body else none

/-- Modelled from the spec: the X25519 exchange of the external
`cryptography` package, as a deterministic function of both key bytes.
No claim depends on its algebra; it only feeds the root-mix KDF. -/
def x25519Exchange (priv pub : Bytes) : Bytes :=
  sha256 ([120] ++ priv ++ pub)

/-- Modelled from the spec: raw public-key bytes of an X25519 private
key (`_pub_bytes`), as a deterministic function of the private key. -/
def x25519PubBytes (priv : Bytes) : Bytes :=
  sha256 ([112] ++ priv)

/-- `LivingState` of `src/crypto/living_cipher.py`; `dh_priv` holds the
raw bytes standing for the X25519 private key object -/
structure LivingState where
  root_key : Bytes
  chain_key_send : Bytes
  chain_key_recv : Bytes
  send_counter : Nat := 0
  recv_counter : Nat := 0
  transcript : Bytes := List.replicate 32 0
  suite : Bytes := suiteV3
  ooo_window : Nat := 32
  skipped_keys : List (Nat × Bytes) := []
  root_ratchet_every : Nat := 1024
  dh_priv : Bytes := []
  remote_dh_pub : Option Bytes := none
deriving DecidableEq

/-- `init_from_shared_secret`; the freshly generated X25519 private key
is passed explicitly (`dhPriv`) since the embedding is deterministic -/
def init_from_shared_secret (sharedSecret ctx : Bytes) (oooWindow rootRatchetEvery : Nat)
    (dhPriv : Bytes) : LivingState :=
  let root := hkdf sharedSecret (ctx ++ rootSuffix) 32
  { root_key := root
    chain_key_send := hkdf root (ctx ++ ckSendSuffix) 32
    chain_key_recv := hkdf root (ctx ++ ckRecvSuffix) 32
    ooo_window := oooWindow
    root_ratchet_every := rootRatchetEvery
    dh_priv := dhPriv }

/-- `ratchet_step`: next chain key and message key for a counter -/
def ratchet_step (chainKey context : Bytes) (counter : Nat) : Bytes × Bytes :=
  (hkdf chainKey (context ++ ckSuffix ++ u64be counter) 32,
   hkdf chainKey (context ++ mkSuffix ++ u64be counter) 32)

/-- `update_transcript`: bind the transcript to header and ciphertext -/
def update_transcript (transcript header ciphertext : Bytes) : Bytes :=
  sha256 (transcript ++ sha256 header ++ sha256 ciphertext)

/-- `_mix_root`: fold a DH shared secret into the root key -/
def mixRoot (rootKey dhShared suite : Bytes) : Bytes :=
  hkdf (rootKey ++ dhShared) (suite ++ rootMixSuffix) 32

/-- `_derive_chains_from_root`: re-derive both chain keys -/
def deriveChainsFromRoot (rootKey suite : Bytes) : Bytes × Bytes :=
  (hkdf rootKey (suite ++ ckSendSuffix) 32, hkdf rootKey (suite ++ ckRecvSuffix) 32)

/-- `_should_root_ratchet` -/
def shouldRootRatchet (counter every : Nat) : Bool :=
  decide (every > 0) && decide (counter > 0) && decide (counter % every = 0)

/-- `_build_header_v3`: magic, suite length, suite, u64 BE counter,
previous transcript, flags, optional DH public key -/
def buildHeaderV3 (suiteB : Bytes) (counter : Nat) (prev : Bytes) (dhPub : Option Bytes) :
    Except String Bytes :=
  if prev.length ≠ 32 then .error "prev_transcript must be 32 bytes"
  else if suiteB.length > 255 then .error "suite too long"
  else
    match dhPub with
    | none => .ok (magicH4LC3 ++ [suiteB.length] ++ suiteB ++ u64be counter ++ prev ++ [0])
    | some dp =>
        if dp.length ≠ 32 then .error "dh_pub must be 32 bytes"
        else .ok (magicH4LC3 ++ [suiteB.length] ++ suiteB ++ u64be counter ++ prev ++ [1] ++ dp)

/-- `_parse_header_v3`: returns (suite, counter, prev transcript, flags,
optional DH public key); trailing bytes are tolerated -/
def parseHeaderV3 (h : Bytes) : Except String (Bytes × Nat × Bytes × Nat × Option Bytes) :=
  if h.length < 47 then .error "header too short"
  else if h.take 5 ≠ magicH4LC3 then .error "not v3 header"
  else
    let sl := h.getD 5 0
    let suite := (h.drop 6).take sl
    let pos := 6 + sl
    if h.length < pos + 8 then .error "struct"
    else
      let counter := beNat ((h.drop pos).take 8)
      let prev := (h.drop (pos + 8)).take 32
      match h.drop (pos + 40) with
      | [] => .error "IndexError"
      | flags :: _ =>
          if flags &&& 1 = 1 then
            if h.length < pos + 41 + 32 then .error "missing dh_pub"
            else .ok (suite, counter, prev, flags, some ((h.drop (pos + 41)).take 32))
          else .ok (suite, counter, prev, flags, none)

/-- `_evict_skipped`: drop cached keys outside the receive window
(the Nat subtraction matches Python's `max(0, recv - window)`) -/
def evictSkipped (s : LivingState) : LivingState :=
  let low := s.recv_counter - s.ooo_window
  let high := s.recv_counter + s.ooo_window
  { s with skipped_keys :=
      s.skipped_keys.filter (fun kv => decide (low ≤ kv.1) && decide (kv.1 ≤ high)) }

/-- key-derivation loop of `_precompute_skipped_keys`: starting from the
receive chain key, cache a message key for each counter up to the target -/
def precomputeGo (ctx : Bytes) : Nat → Bytes → Nat → List (Nat × Bytes) → List (Nat × Bytes)
  | 0, _, _, m => m
  | n + 1, ck, i, m =>
      let step := ratchet_step ck ctx i
      precomputeGo ctx n step.1 (i + 1) (alSet m i step.2)

/-- `_precompute_skipped_keys` followed by its trailing eviction -/
def precomputeSkippedKeys (s : LivingState) (target : Nat) : LivingState :=
  let ctx := s.suite ++ ratchetSuffix
  let m := precomputeGo ctx (target + 1 - s.recv_counter) s.chain_key_recv s.recv_counter
    s.skipped_keys
  evictSkipped { s with skipped_keys := m }

/-- association-list pop (Python `dict.pop`): the value and the list
without that key -/
def alPop {α : Type} : List (Nat × α) → Nat → Option (α × List (Nat × α))
  | [], _ => none
  | (k0, v0) :: rest, k =>
      if k0 = k then some (v0, rest)
      else (alPop rest k).map (fun r => (r.1, (k0, v0) :: r.2))

/-- `encrypt` of `src/crypto/living_cipher.py`; `fresh` stands for the
X25519 private key that `X25519PrivateKey.generate()` would produce at a
root-ratchet boundary (unused on other calls) -/
def lcEncrypt (s : LivingState) (pt aad fresh : Bytes) :
    Except String (Bytes × Bytes) × LivingState :=
  let ratchetNow := shouldRootRatchet s.send_counter s.root_ratchet_every
  let s1 :=
    if ratchetNow then
      let s' := { s with dh_priv := fresh }
      match s.remote_dh_pub with
      | some rp =>
          let rk := mixRoot s.root_key (x25519Exchange fresh rp) s.suite
          let chains := deriveChainsFromRoot rk s.suite
          { s' with root_key := rk, chain_key_send := chains.1,
                    chain_key_recv := chains.2, skipped_keys := [] }
      | none => s'
    else s
  let dhPub : Option Bytes := if ratchetNow then some (x25519PubBytes fresh) else none
  let ctx := s1.suite ++ ratchetSuffix
  let step := ratchet_step s1.chain_key_send ctx s1.send_counter
  let s2 := { s1 with chain_key_send := step.1 }
  let nonce := hkdf step.2 (nonceInfoPre ++ u64be s2.send_counter) 12
  match buildHeaderV3 s2.suite s2.send_counter s2.transcript dhPub with
  | .error e => (.error e, s2)
  | .ok header =>
      let ct := aesgcmEncrypt step.2 nonce pt (aad ++ header)
      (.ok (header, ct),
       { s2 with transcript := update_transcript s2.transcript header ct,
                 send_counter := s2.send_counter + 1 })

/-- error kinds of `decrypt`, one per raise site (`auth` is the AEAD
`InvalidTag`, `keyErr` the impossible `dict.pop` failure right after a
precompute) -/
inductive DErr where
  | headerErr
  | suiteMismatch
  | replay
  | tooFar
  | unexpectedCounter
  | transcriptMismatch
  | auth
  | keyErr
deriving DecidableEq

/-- DH mixing step at the top of `decrypt`, applied when the header
carries a DH public key -/
def dhMix (s : LivingState) (dhPub : Option Bytes) : LivingState :=
  match dhPub with
  | none => s
  | some pub =>
      let rk := mixRoot s.root_key (x25519Exchange s.dh_priv pub) s.suite
      let chains := deriveChainsFromRoot rk s.suite
      { s with remote_dh_pub := some pub, root_key := rk,
               chain_key_send := chains.1, chain_key_recv := chains.2,
               skipped_keys := [] }

/-- `decrypt` of `src/crypto/living_cipher.py`, returning the final state
next to the result (mutations made before a raise survive in Python) -/
def lcDecrypt (s : LivingState) (header ct aad : Bytes) :
    Except DErr Bytes × LivingState :=
  match parseHeaderV3 header with
  | .error _ => (.error .headerErr, s)
  | .ok (suite, counter, prev, _flags, dhPub) =>
      if suite ≠ s.suite then (.error .suiteMismatch, s)
      else
        let s1 := dhMix s dhPub
        if counter < s1.recv_counter - s1.ooo_window then (.error .replay, s1)
        else
          match alPop s1.skipped_keys counter with
          | some (mk, rest) =>
              let s2 := { s1 with skipped_keys := rest }
              let nonce := hkdf mk (nonceInfoPre ++ u64be counter) 12
              match aesgcmDecrypt mk nonce ct (aad ++ header) with
              | some pt => (.ok pt, s2)
              | none => (.error .auth, s2)
          | none =>
              if counter > s1.recv_counter then
                if counter - s1.recv_counter > s1.ooo_window then (.error .tooFar, s1)
                else
                  let s2 := precomputeSkippedKeys s1 counter
                  match alPop s2.skipped_keys counter with
                  | some (mk, rest) =>
                      let s3 := { s2 with skipped_keys := rest }
                      let nonce := hkdf mk (nonceInfoPre ++ u64be counter) 12
                      match aesgcmDecrypt mk nonce ct (aad ++ header) with
                      | some pt => (.ok pt, evictSkipped s3)
                      | none => (.error .auth, s3)
                  | none => (.error .keyErr, s2)
              else if counter ≠ s1.recv_counter then (.error .unexpectedCounter, s1)
              else if prev ≠ s1.transcript then (.error .transcriptMismatch, s1)
              else
                let ctx := s1.suite ++ ratchetSuffix
                let step := ratchet_step s1.chain_key_recv ctx s1.recv_counter
                let s2 := { s1 with chain_key_recv := step.1 }
                let nonce := hkdf step.2 (nonceInfoPre ++ u64be s2.recv_counter) 12
                match aesgcmDecrypt step.2 nonce ct (aad ++ header) with
                | some pt =>
                    (.ok pt, evictSkipped
                      { s2 with transcript := update_transcript s2.transcript header ct,
                                recv_counter := s2.recv_counter + 1 })
                | none => (.error .auth, s2)

/-- success condition of the in-order path of `decrypt`, spelled out: the
header parses with the state's suite, its counter equals the receive
counter of the (DH-mixed) state and is not cached, its previous
transcript matches, and the AEAD tag verifies under the message key
stepped from the receive chain -/
def inOrderCommitB (s : LivingState) (header ct aad : Bytes) : Bool :=
  match parseHeaderV3 header with
  | .error _ => false
  | .ok (suite, counter, prev, _flags, dhPub) =>
      if suite ≠ s.suite then false
      else
        let s1 := dhMix s dhPub
        decide (counter = s1.recv_counter) &&
        (alPop s1.skipped_keys counter).isNone &&
        decide (prev = s1.transcript) &&
        (aesgcmDecrypt (ratchet_step s1.chain_key_recv (s1.suite ++ ratchetSuffix) s1.recv_counter).2
          (hkdf (ratchet_step s1.chain_key_recv (s1.suite ++ ratchetSuffix) s1.recv_counter).2
            (nonceInfoPre ++ u64be s1.recv_counter) 12)
          ct (aad ++ header)).isSome

/-- states reachable from `init_from_shared_secret` through any sequence
of `encrypt` and `decrypt` calls (successful or failing; Python keeps the
mutated state either way) -/
inductive Reach : LivingState → Prop where
  | init (secret ctx dhPriv : Bytes) (w every : Nat) (hlen : secret.length = 32) :
      Reach (init_from_shared_secret secret ctx w every dhPriv)
  | enc (s : LivingState) (pt aad fresh : Bytes) (hs : Reach s) :
      Reach (lcEncrypt s pt aad fresh).2
  | dec (s : LivingState) (h ct aad : Bytes) (hs : Reach s) :
      Reach (lcDecrypt s h ct aad).2

/-- invariant of the skipped-key cache carried through `Reach`: cached
counters are pairwise distinct, lie in `[recv_counter, recv_counter +
ooo_window]` (so never behind the receive counter), and a zero window
keeps the cache empty -/
def SkInv (s : LivingState) : Prop :=
  (s.skipped_keys.map Prod.fst).Nodup ∧
  (∀ kv ∈ s.skipped_keys,
    s.recv_counter ≤ kv.1 ∧ kv.1 ≤ s.recv_counter + s.ooo_window) ∧
  (s.ooo_window = 0 → s.skipped_keys = [])

/-- container produced by `build_h4mk [] [] (empty meta) (empty safe)`,
spelled out byte for byte (proved equal to the builder's output below):
file header, SEEK chunk, META chunk carrying the compression seal, SAFE
chunk, and the VERI chunk -/
def c1Bytes : Bytes :=
  [72, 52, 77, 75, 0, 1, 0, 0, 83, 69, 69, 75, 0, 0, 0, 4, 33, 68, 223, 28, 0, 0, 0, 0,
   77, 69, 84, 65, 0, 0, 0, 166, 203, 173, 174, 182, 123, 34, 99, 111, 109, 112, 114,
   101, 115, 115, 105, 111, 110, 34, 58, 123, 34, 101, 110, 103, 105, 110, 101, 34, 58,
   34, 103, 101, 111, 109, 101, 116, 114, 105, 99, 45, 114, 101, 102, 101, 114, 101, 110,
   99, 101, 34, 44, 34, 101, 110, 103, 105, 110, 101, 95, 105, 100, 34, 58, 34, 117, 110,
   107, 110, 111, 119, 110, 34, 44, 34, 102, 105, 110, 103, 101, 114, 112, 114, 105, 110,
   116, 34, 58, 34, 117, 110, 107, 110, 111, 119, 110, 34, 44, 34, 100, 101, 116, 101,
   114, 109, 105, 110, 105, 115, 116, 105, 99, 34, 58, 116, 114, 117, 101, 44, 34, 105,
   100, 101, 110, 116, 105, 116, 121, 95, 115, 97, 102, 101, 34, 58, 116, 114, 117, 101,
   44, 34, 111, 112, 97, 113, 117, 101, 34, 58, 102, 97, 108, 115, 101, 44, 34, 115, 101,
   97, 108, 101, 100, 34, 58, 102, 97, 108, 115, 101, 125, 125, 83, 65, 70, 69, 0, 0, 0,
   2, 163, 166, 191, 67, 123, 125, 86, 69, 82, 73, 0, 0, 0, 32, 169, 60, 240, 19, 177,
   251, 30, 54, 12, 86, 77, 200, 125, 174, 136, 32, 114, 78, 167, 235, 89, 188, 13, 236,
   246, 128, 206, 131, 216, 206, 41, 134, 173, 149, 127, 66]

/-!
Concrete replay scenario for the out-of-order cache (claim C9): a
receiver initialized from SHA-256 of the byte string "s" (the spec's
scenario secret), and a counter-1 message formed under its receive
chain, as the sender would produce it.
-/

/-- receiver state: `init_from_shared_secret(sha256(b"s"))` -/
def c9State : LivingState :=
  init_from_shared_secret (sha256 [115]) ctxDefault 32 1024 []

/-- header of the counter-1 message (suite, counter 1, zero transcript,
no DH key) -/
def c9Header : Bytes :=
  (buildHeaderV3 suiteV3 1 (List.replicate 32 0) none).toOption.getD []

/-- message key for counter 1 on the receive chain -/
def c9Mk : Bytes :=
  (ratchet_step (ratchet_step c9State.chain_key_recv (suiteV3 ++ ratchetSuffix) 0).1
    (suiteV3 ++ ratchetSuffix) 1).2

/-- ciphertext of the counter-1 message (plaintext "msg1", empty AAD) -/
def c9Ct : Bytes :=
  aesgcmEncrypt c9Mk (hkdf c9Mk (nonceInfoPre ++ u64be 1) 12) [109, 115, 103, 49] c9Header

/-!
First-message apparatus for the encrypt-then-decrypt roundtrip of the
living cipher (claim C3): the concrete header the first `encrypt` emits,
the peer state with swapped chain keys, and the spec's "hello" scenario
at a concrete secret.
-/

/-- header bytes of the first message `encrypt` emits from a fresh
state: magic, suite length, v3 suite, counter 0, all-zero transcript,
flags 0, no DH key -/
def firstMsgHeader : Bytes :=
  magicH4LC3 ++ [31] ++ suiteV3 ++ u64be 0 ++ List.replicate 32 0 ++ [0]

/-- the peer of a state: same fields, chain keys swapped (the receiver
of the spec's roundtrip scenario) -/
def swappedPeer (s : LivingState) : LivingState :=
  { s with chain_key_send := s.chain_key_recv, chain_key_recv := s.chain_key_send }

/-- sender of the scenario: initialised from SHA-256 of `b"c"` and the
module's default context -/
def c3S : LivingState :=
  init_from_shared_secret (sha256 [99]) ctxDefault 32 1024 []

/-- receiver of the scenario: same secret and context, chain keys
swapped relative to the sender -/
def c3R : LivingState := swappedPeer c3S

/-- the scenario plaintext `b"hello"` -/
def c3Pt : Bytes := [104, 101, 108, 108, 111]

/-- header and ciphertext of the scenario's first message -/
def c3Pair : Bytes × Bytes :=
  ((lcEncrypt c3S c3Pt [] []).1.toOption).getD ([], [])

/-!
Test vectors, pinning the embedded primitives to their published values.
-/

theorem sha256_vector_empty :
    sha256 [] =
      [227, 176, 196, 66, 152, 252, 28, 20, 154, 251, 244, 200, 153, 111, 185, 36,
       39, 174, 65, 228, 100, 155, 147, 76, 164, 149, 153, 27, 120, 82, 184, 85] := by
  decide

theorem sha256_vector_abc :
    sha256 [97, 98, 99] =
      [186, 120, 22, 191, 143, 1, 207, 234, 65, 65, 64, 222, 93, 174, 34, 35,
       176, 3, 97, 163, 150, 23, 122, 156, 180, 16, 255, 97, 242, 0, 21, 173] := by
  decide

theorem crc32_vector_empty : crc32 [] = 0 := by decide

theorem crc32_vector_check : crc32 [49, 50, 51, 52, 53, 54, 55, 56, 57] = 0xCBF43926 := by
  decide

/-!
Claim C1.  The writer (`build_h4mk`) seals VERI over the full on-the-wire
bytes (tag, length, CRC, payload) of every preceding chunk — see
`build_h4mk_veri_is_wire_hash` — but the reader's `verify_integrity`
recomputes the hash over chunk payloads only, so it returns False on
every container the writer produces with a VERI chunk.  The theorem
evaluates both sides at the smallest failing input
`build_h4mk([], [], {}, {})`.
-/

/-- the writer really seals VERI over the packed wire bytes of all prior
chunks: every successfully built container ends in a VERI chunk whose
payload is the SHA-256 of everything between the 8-byte file header and
that chunk -/
theorem build_h4mk_veri_is_wire_hash (cb : List Bytes) (se : List (Nat × Nat))
    (meta safe : Jfields) (b : Bytes) (hb : build_h4mk cb se meta safe = .ok b) :
    ∃ pre, b = magicH4MK ++ u16be 1 ++ u16be 0 ++ (pre ++ chunkPack tagVERI (sha256 pre)) := by
  unfold build_h4mk at hb
  cases hcbs : compressBlocks cb with
  | error e => rw [hcbs] at hb; exact absurd hb (by simp [Bind.bind, Except.bind])
  | ok cbs =>
      rw [hcbs] at hb
      simp only [Bind.bind, Except.bind, Except.ok.injEq] at hb
      exact ⟨_, hb.symm⟩

/-- C1: the container built from empty inputs is exactly `c1Bytes` (so
its VERI payload is the SHA-256 of the wire bytes of the preceding
chunks, per `build_h4mk_veri_is_wire_hash`), yet the reader's
`verify_integrity` rejects it, because it hashes chunk payloads only -/
theorem c1_verify_integrity_fails_on_built_container :
    build_h4mk [] [] Jfields.nil Jfields.nil = .ok c1Bytes ∧
    readerVerify c1Bytes = .ok false :=
  ⟨by decide, by decide⟩

theorem hmac_vector_rfc4231_case2 :
    hmacSha256 [74, 101, 102, 101]
      [119, 104, 97, 116, 32, 100, 111, 32, 121, 97, 32, 119, 97, 110, 116,
       32, 102, 111, 114, 32, 110, 111, 116, 104, 105, 110, 103, 63] =
      [91, 220, 193, 70, 191, 96, 117, 78, 106, 4, 36, 38, 8, 149, 117, 199,
       90, 0, 63, 8, 157, 39, 57, 131, 157, 236, 88, 185, 100, 236, 56, 67] := by
  decide

/-!
Claim C2.  Round trip of the reference compression engine.
-/

/-- the prefix counted by `countEq` really is a run of the value -/
theorem countEq_take (v : Nat) :
    ∀ (l : Bytes) (cap : Nat), l.take (countEq v l cap) = List.replicate (countEq v l cap) v := by
  intro l
  induction l with
  | nil => intro cap; simp [countEq]
  | cons b rest ih =>
      intro cap
      cases cap with
      | zero => simp [countEq]
      | succ c =>
          by_cases hb : b = v
          · simp only [countEq, if_pos hb]
            rw [Nat.add_comm, List.take_succ_cons, List.replicate_succ, ih c, hb]
          · simp [countEq, hb]

/-- `countEq` never counts past the end of the list -/
theorem countEq_le_length (v : Nat) :
    ∀ (l : Bytes) (cap : Nat), countEq v l cap ≤ l.length := by
  intro l
  induction l with
  | nil => intro cap; simp [countEq]
  | cons b rest ih =>
      intro cap
      cases cap with
      | zero => simp [countEq]
      | succ c =>
          by_cases hb : b = v
          · simp only [countEq, if_pos hb, List.length_cons]
            have := ih c
            omega
          · simp [countEq, hb]

/-- decoding inverts encoding, given enough fuel (one unit per run) -/
theorem rle_roundtrip :
    ∀ (fuel : Nat) (l : Bytes), l.length ≤ fuel →
      decompressRleGo (compressRleGo fuel l) = some l := by
  intro fuel
  induction fuel with
  | zero =>
      intro l hl
      have : l = [] := List.eq_nil_of_length_eq_zero (Nat.le_zero.mp hl)
      subst this
      simp [compressRleGo, decompressRleGo]
  | succ f ih =>
      intro l hl
      cases l with
      | nil => simp [compressRleGo, decompressRleGo]
      | cons v rest =>
          have hlen : (rest.drop (countEq v rest 254)).length ≤ f := by
            have h1 : (rest.drop (countEq v rest 254)).length = rest.length - countEq v rest 254 :=
              List.length_drop _ _
            have h2 : rest.length ≤ f := by
              simp only [List.length_cons] at hl
              omega
            omega
          have hrec := ih (rest.drop (countEq v rest 254)) hlen
          show decompressRleGo (v :: (1 + countEq v rest 254) ::
              compressRleGo f (rest.drop (countEq v rest 254))) = some (v :: rest)
          show (decompressRleGo (compressRleGo f (rest.drop (countEq v rest 254)))).map
              (fun t => List.replicate (1 + countEq v rest 254) v ++ t) = some (v :: rest)
          rw [hrec]
          show some (List.replicate (1 + countEq v rest 254) v ++
              rest.drop (countEq v rest 254)) = some (v :: rest)
          have h3 : List.replicate (countEq v rest 254) v ++ rest.drop (countEq v rest 254) =
              rest := by
            rw [← countEq_take v rest 254]
            exact List.take_append_drop _ rest
          rw [Nat.add_comm, List.replicate_succ, List.cons_append, h3]

/-- the encoder always emits byte pairs -/
theorem compressRleGo_length_even :
    ∀ (fuel : Nat) (l : Bytes), (compressRleGo fuel l).length % 2 = 0 := by
  intro fuel
  induction fuel with
  | zero => intro l; simp [compressRleGo]
  | succ f ih =>
      intro l
      cases l with
      | nil => simp [compressRleGo]
      | cons v rest => simp [compressRleGo, List.length_cons, Nat.add_mod, ih]

/-- C2: for every input satisfying the engine's alignment precondition,
`decompress (compress x) = x` bytewise (compression succeeds and
decompression recovers the input exactly; both functions are pure
functions of their input by construction of the embedding) -/
theorem c2_geo_roundtrip (x : Bytes) (hx : x.length % 256 = 0) :
    ∃ c, geoCompress x = .ok c ∧ geoDecompress c = .ok x := by
  cases x with
  | nil => exact ⟨[], by simp [geoCompress], by simp [geoDecompress]⟩
  | cons b rest =>
      refine ⟨compress_rle_delta (b :: rest), ?_, ?_⟩
      · have hx2 : ¬((b :: rest).length % 256 ≠ 0) := by simpa using hx
        have hne : ¬((b :: rest).length = 0) := by simp
        simp only [geoCompress, if_neg hne, if_neg hx2]
      · have hcomp : compress_rle_delta (b :: rest) =
            compressRleGo (b :: rest).length (b :: rest) := by
          simp [compress_rle_delta]
        have hne2 : compressRleGo (b :: rest).length (b :: rest) ≠ [] := by
          simp only [List.length_cons]
          simp [compressRleGo]
        have hne3 : ¬((compressRleGo (b :: rest).length (b :: rest)).isEmpty = true) := by
          simpa [List.isEmpty_iff] using hne2
        have heven : ¬((compressRleGo (b :: rest).length (b :: rest)).length % 2 ≠ 0) := by
          simpa using compressRleGo_length_even (b :: rest).length (b :: rest)
        have hrt := rle_roundtrip (b :: rest).length (b :: rest) (Nat.le_refl _)
        rw [hcomp]
        simp only [geoDecompress, if_neg hne3, if_neg heven, decompress_rle_delta,
          if_neg hne3, hrt]

/-- C2 witness: a concrete 256-byte input round-trips -/
theorem c2_geo_roundtrip_witness :
    (List.replicate 256 7 : Bytes).length % 256 = 0 ∧
    ∃ c, geoCompress (List.replicate 256 7) = .ok c ∧
      geoDecompress c = .ok (List.replicate 256 7) :=
  ⟨by decide, c2_geo_roundtrip _ (by decide)⟩

/-!
Claim C5.  The API endpoint's linear seek scan starts with
`chosen = entries[0]` and only breaks on the first entry above the
target, so with a non-empty list whose entries all exceed the target it
reports a keyframe after the requested time instead of "no keyframe".
The container-level binary searches behave as the claim states.
-/

/-- C5: on the seek list [(pts 10, core index 0)] and target 5, the
endpoint logic reports found with keyframe pts 10 (which is after the
requested time) while the claim requires a "no keyframe" result; the
reader's and the seek table's binary searches do return none there -/
theorem c5_seek_to_block_returns_future_keyframe :
    seek_to_block [(10, 0)] 5 = some (10, 0) ∧ 5 < 10 ∧
    seek_to_pts [(10, 0)] 5 = none ∧ seekTableSeek [(10, 0)] 5 = none := by
  decide

/-!
Claims C6 and C10.  Byte-level behaviour of `H4MKReader._parse`.
-/

/-- byte masking is reduction mod 256 -/
theorem land255_eq_mod (m : Nat) : m &&& 255 = m % 256 := by
  have := Nat.and_pow_two_sub_one_eq_mod m 8
  norm_num at this
  exact this

/-- u32 BE encoding round-trips through the big-endian reader -/
theorem beNat_u32be (n : Nat) (h : n < 2 ^ 32) : beNat (u32be n) = n := by
  simp only [u32be, beNat, List.foldl_cons, List.foldl_nil, land255_eq_mod,
    Nat.shiftRight_eq_div_pow]
  omega

/-- u16 BE encoding round-trips through the big-endian reader -/
theorem beNat_u16be (n : Nat) (h : n < 2 ^ 16) : beNat (u16be n) = n := by
  simp only [u16be, beNat, List.foldl_cons, List.foldl_nil, land255_eq_mod,
    Nat.shiftRight_eq_div_pow]
  omega

/-- the chunk-stream loop on a well-formed stored stream with a short
trailing remainder: it accepts exactly when every stored CRC matches its
payload, and the chunk infos it produces depend only on the stream -/
theorem parseChunksGo_stream :
    ∀ (chunks : List SChunk) (data trailing : Bytes) (pos fuel : Nat),
      data.drop pos = chunkStream chunks ++ trailing →
      pos ≤ data.length →
      trailing.length < 12 →
      SWf chunks →
      data.length + 1 ≤ fuel + pos →
      parseChunksGo data fuel pos =
        (if chunks.all (fun c => crc32 c.payload == c.crc) then .ok (infosOf pos chunks)
         else .error .crcMismatch) := by
  intro chunks
  induction chunks with
  | nil =>
      intro data trailing pos fuel hdata hpos htrail _hwf hfuel
      have hlen : data.length - pos = trailing.length := by
        have := List.length_drop pos data
        rw [hdata] at this
        simpa [chunkStream] using this.symm
      cases fuel with
      | zero => omega
      | succ f =>
          simp only [List.all_nil, if_true, infosOf]
          by_cases hend : pos ≥ data.length
          · simp [parseChunksGo, hend]
          · have h12 : pos + 12 > data.length := by omega
            simp [parseChunksGo, hend, h12]
  | cons c rest ih =>
      intro data trailing pos fuel hdata hpos htrail hwf hfuel
      obtain ⟨htag, hcrc, hplen⟩ := hwf c (by simp)
      have hwfRest : SWf rest := fun x hx => hwf x (by simp [hx])
      -- right-associated view of the suffix starting at pos
      have hdata' : data.drop pos =
          c.tag ++ (u32be c.payload.length ++ (u32be c.crc ++ (c.payload ++
            (chunkStream rest ++ trailing)))) := by
        rw [hdata]
        simp [chunkStream, packStored, List.append_assoc]
      have hsuffixlen : data.length - pos =
          12 + c.payload.length + ((chunkStream rest).length + trailing.length) := by
        have := List.length_drop pos data
        rw [hdata'] at this
        simp only [List.length_append, htag] at this
        have h4a : (u32be c.payload.length).length = 4 := rfl
        have h4b : (u32be c.crc).length = 4 := rfl
        rw [h4a, h4b] at this
        omega
      have hposlt : pos < data.length := by omega
      have h12 : ¬(pos + 12 > data.length) := by omega
      -- reads at offsets 0, 4, 8, 12 of the suffix
      have hdrop4 : data.drop (pos + 4) =
          u32be c.payload.length ++ (u32be c.crc ++ (c.payload ++ (chunkStream rest ++ trailing))) := by
        have hdd := List.drop_drop 4 pos data
        rw [hdata'] at hdd
        rw [← hdd, ← htag, List.drop_left]
      have hdrop8 : data.drop (pos + 8) =
          u32be c.crc ++ (c.payload ++ (chunkStream rest ++ trailing)) := by
        have hdd := List.drop_drop 4 (pos + 4) data
        rw [hdrop4, show pos + 4 + 4 = pos + 8 from by omega] at hdd
        rw [← hdd, show (4 : Nat) = (u32be c.payload.length).length from rfl, List.drop_left]
      have hdrop12 : data.drop (pos + 12) =
          c.payload ++ (chunkStream rest ++ trailing) := by
        have hdd := List.drop_drop 4 (pos + 8) data
        rw [hdrop8, show pos + 8 + 4 = pos + 12 from by omega] at hdd
        rw [← hdd, show (4 : Nat) = (u32be c.crc).length from rfl, List.drop_left]
      have htagRead : (data.drop pos).take 4 = c.tag := by
        rw [hdata', ← htag, List.take_left]
      have hsizeRead : beNat ((data.drop (pos + 4)).take 4) = c.payload.length := by
        rw [hdrop4, show (4 : Nat) = (u32be c.payload.length).length from rfl,
          List.take_left, beNat_u32be _ hplen]
      have hcrcRead : beNat ((data.drop (pos + 8)).take 4) = c.crc := by
        rw [hdrop8, show (4 : Nat) = (u32be c.crc).length from rfl,
          List.take_left, beNat_u32be _ hcrc]
      have hpayloadRead : (data.drop (pos + 12)).take c.payload.length = c.payload := by
        rw [hdrop12]
        exact List.take_left _ _
      have hfit : ¬(pos + 12 + c.payload.length > data.length) := by omega
      cases fuel with
      | zero => omega
      | succ f =>
          have hstep : data.drop (pos + 12 + c.payload.length) =
              chunkStream rest ++ trailing := by
            have hdd := List.drop_drop c.payload.length (pos + 12) data
            rw [hdrop12] at hdd
            rw [← hdd]
            exact List.drop_left _ _
          have hrec := ih data trailing (pos + 12 + c.payload.length) f hstep
            (by omega) htrail hwfRest (by omega)
          simp only [parseChunksGo]
          rw [if_neg (show ¬pos ≥ data.length by omega), if_neg h12]
          rw [htagRead, hsizeRead, hcrcRead, hpayloadRead]
          rw [if_neg hfit, hrec]
          by_cases hgood : crc32 c.payload = c.crc
          · rw [if_neg (by simp [hgood])]
            by_cases hall : rest.all (fun x => crc32 x.payload == x.crc) = true
            · simp [Bind.bind, Except.bind, List.all_cons, hgood, hall, infosOf]
            · simp only [Bool.not_eq_true] at hall
              simp [Bind.bind, Except.bind, List.all_cons, hgood, hall]
          · rw [if_pos (by simpa using hgood)]
            simp [List.all_cons, hgood]

/-- parsing a well-formed container: success (with infos independent of
the trailing bytes) exactly when every stored CRC is valid -/
theorem readerParse_mkContainerS (r : Nat) (chunks : List SChunk) (trailing : Bytes)
    (hwf : SWf chunks) (htrail : trailing.length < 12) :
    readerParse (mkContainerS r chunks trailing) =
      (if chunks.all (fun c => crc32 c.payload == c.crc) then .ok (infosOf 8 chunks)
       else .error .crcMismatch) := by
  have hhead : mkContainerS r chunks trailing =
      (magicH4MK ++ u16be 1 ++ u16be r) ++ (chunkStream chunks ++ trailing) := by
    simp [mkContainerS, List.append_assoc]
  have hhl : (magicH4MK ++ u16be 1 ++ u16be r).length = 8 := by
    simp [magicH4MK, u16be]
  have hlen8 : ¬((mkContainerS r chunks trailing).length < 8) := by
    rw [hhead]
    simp only [List.length_append, hhl]
    omega
  have hmagic : (mkContainerS r chunks trailing).take 4 = magicH4MK := by
    rw [hhead, List.append_assoc, List.append_assoc]
    rw [show (4 : Nat) = (magicH4MK : Bytes).length from rfl, List.take_left]
  have hver : beNat (((mkContainerS r chunks trailing).drop 4).take 2) = 1 := by
    have : (mkContainerS r chunks trailing).drop 4 =
        u16be 1 ++ (u16be r ++ (chunkStream chunks ++ trailing)) := by
      rw [hhead, List.append_assoc, List.append_assoc]
      rw [show (4 : Nat) = (magicH4MK : Bytes).length from rfl, List.drop_left]
    rw [this, show (2 : Nat) = (u16be 1).length from rfl, List.take_left]
    decide
  have hdrop8 : (mkContainerS r chunks trailing).drop 8 = chunkStream chunks ++ trailing := by
    rw [hhead, ← hhl, List.drop_left]
  unfold readerParse
  rw [if_neg hlen8, if_neg (by rw [hmagic]; exact fun h => h rfl),
    if_neg (by rw [hver]; exact fun h => h rfl)]
  exact parseChunksGo_stream chunks _ trailing 8 ((mkContainerS r chunks trailing).length + 1)
    hdrop8 (by omega) htrail hwf (by omega)

/-- C6: the reader's constructor fails on any input whose magic is not
H4MK, on any input whose version field is not 1, and on any container
holding a chunk whose stored CRC differs from the CRC-32 of its payload
(a refused container is an `Except.error`, so it exposes no chunks) -/
theorem c6_reader_refuses_bad_magic_version_crc :
    (∀ data : Bytes, data.take 4 ≠ magicH4MK → (readerParse data).isOk = false) ∧
    (∀ data : Bytes, beNat ((data.drop 4).take 2) ≠ 1 → (readerParse data).isOk = false) ∧
    (∀ (r : Nat) (chunks : List SChunk) (trailing : Bytes), SWf chunks →
      trailing.length < 12 → (∃ c ∈ chunks, crc32 c.payload ≠ c.crc) →
      (readerParse (mkContainerS r chunks trailing)).isOk = false) := by
  refine ⟨?_, ?_, ?_⟩
  · intro data hmagic
    unfold readerParse
    by_cases hshort : data.length < 8
    · simp [hshort, Except.isOk, Except.toBool]
    · simp [hshort, hmagic, Except.isOk, Except.toBool]
  · intro data hver
    unfold readerParse
    by_cases hshort : data.length < 8
    · simp [hshort, Except.isOk, Except.toBool]
    · by_cases hmagic : data.take 4 = magicH4MK
      · simp [hshort, hmagic, hver, Except.isOk, Except.toBool]
      · simp [hshort, hmagic, Except.isOk, Except.toBool]
  · intro r chunks trailing hwf htrail hbad
    rw [readerParse_mkContainerS r chunks trailing hwf htrail]
    have : chunks.all (fun c => crc32 c.payload == c.crc) = false := by
      obtain ⟨c, hc, hne⟩ := hbad
      exact List.all_eq_false.mpr ⟨c, hc, by simpa using hne⟩
    simp [this, Except.isOk, Except.toBool]

/-- C6 witness: concrete refusals — bad magic, version 2, and a chunk
whose stored CRC (5) is not the CRC-32 of its payload -/
theorem c6_reader_refuses_witness :
    (readerParse [0, 1, 2, 3, 4, 5, 6, 7]).isOk = false ∧
    (readerParse (magicH4MK ++ [0, 2, 0, 0])).isOk = false ∧
    (readerParse (mkContainerS 0 [⟨tagCORE, 5, [1]⟩] [])).isOk = false :=
  ⟨c6_reader_refuses_bad_magic_version_crc.1 _ (by decide),
   c6_reader_refuses_bad_magic_version_crc.2.1 _ (by decide),
   c6_reader_refuses_bad_magic_version_crc.2.2 0 [⟨tagCORE, 5, [1]⟩] []
     (by unfold SWf; decide) (by decide) ⟨⟨tagCORE, 5, [1]⟩, by decide, by decide⟩⟩

/-- C10 counterexample: `c10C` parses successfully (eleven trailing bytes
are ignored, zero chunks), but appending a single byte makes the stray
bytes parse as a chunk header, so the container parses to a different
chunk list — not the same chunks as before -/
theorem c10_counterexample_trailing_byte_changes_chunks :
    (0 : Nat) < ([0] : Bytes).length ∧ ([0] : Bytes).length < 12 ∧
    readerParse c10C = .ok [] ∧
    readerParse (c10C ++ [0]) = .ok [⟨[0, 0, 0, 0], 20, 0, 0⟩] := by
  refine ⟨by decide, by decide, by decide, by decide⟩

/-- C10 amended: for containers with no trailing remainder (header plus
complete chunks, as the writer emits), appending fewer than twelve bytes
leaves the parse result unchanged -/
theorem c10_amended_short_suffix_ignored (r : Nat) (chunks : List SChunk) (s : Bytes)
    (hwf : SWf chunks) (_hok : (readerParse (mkContainerS r chunks [])).isOk = true)
    (_hs0 : 0 < s.length) (hs : s.length < 12) :
    readerParse (mkContainerS r chunks [] ++ s) = readerParse (mkContainerS r chunks []) := by
  have hcat : mkContainerS r chunks [] ++ s = mkContainerS r chunks s := by
    simp [mkContainerS, List.append_assoc]
  rw [hcat, readerParse_mkContainerS r chunks s hwf hs,
    readerParse_mkContainerS r chunks [] hwf (by simp)]

/-- C10 amended witness: a one-chunk container with a valid CRC; the
suffix [7] does not change the parse -/
theorem c10_amended_witness :
    readerParse (mkContainerS 0 [⟨tagCORE, crc32 [42], [42]⟩] [] ++ [7]) =
      readerParse (mkContainerS 0 [⟨tagCORE, crc32 [42], [42]⟩] []) :=
  c10_amended_short_suffix_ignored 0 [⟨tagCORE, crc32 [42], [42]⟩] [7]
    (by unfold SWf; decide) (by decide) (by decide) (by decide)

/-!
Claim C4.  Decode chains on the multi-track container.
-/

/-- being an I-block of a track, componentwise -/
theorem infoIsI_iff (info : MInfo) (tid : Nat) :
    infoIsI info tid = true ↔
      info.ctype = tagCORE ∧ infoKind info = 0 ∧ trackOfB info = some tid := by
  simp [infoIsI, and_assoc]

/-- every chunk info produced from a position has an offset at least
twelve past it -/
theorem minfosGo_index_ge :
    ∀ (l : List MChunk) (pos : Nat), ∀ info ∈ minfosGo pos l, pos + 12 ≤ info.index := by
  intro l
  induction l with
  | nil => intro pos info h; simp [minfosGo] at h
  | cons c rest ih =>
      intro pos info h
      simp only [minfosGo, List.mem_cons] at h
      cases h with
      | inl h => subst h; exact Nat.le_refl _
      | inr h => have := ih (pos + 12 + c.payload.length + 4) info h; omega

/-- chunk offsets identify chunks uniquely -/
theorem minfosGo_index_inj :
    ∀ (l : List MChunk) (pos : Nat), ∀ a ∈ minfosGo pos l, ∀ b ∈ minfosGo pos l,
      a.index = b.index → a = b := by
  intro l
  induction l with
  | nil => intro pos a ha; simp [minfosGo] at ha
  | cons c rest ih =>
      intro pos a ha b hb hab
      simp only [minfosGo, List.mem_cons] at ha hb
      cases ha with
      | inl ha =>
          cases hb with
          | inl hb => rw [ha, hb]
          | inr hb =>
              exfalso
              have := minfosGo_index_ge rest (pos + 12 + c.payload.length + 4) b hb
              subst ha
              have hab2 : pos + 12 = b.index := hab
              omega
      | inr ha =>
          cases hb with
          | inl hb =>
              exfalso
              have := minfosGo_index_ge rest (pos + 12 + c.payload.length + 4) a ha
              subst hb
              have hab2 : a.index = pos + 12 := hab
              omega
          | inr hb => exact ih (pos + 12 + c.payload.length + 4) a ha b hb hab

/-- a position is found for any offset that occurs in the list -/
theorem posOf_isSome (idx : Nat) :
    ∀ (infos : List MInfo), (∃ info ∈ infos, info.index = idx) →
      (posOf infos idx).isSome = true := by
  intro infos
  induction infos with
  | nil => rintro ⟨info, h, _⟩; simp at h
  | cons ci rest ih =>
      rintro ⟨info, hmem, hidx⟩
      simp only [List.mem_cons] at hmem
      by_cases hci : ci.index = idx
      · simp [posOf, hci]
      · cases hmem with
        | inl h => subst h; exact absurd hidx hci
        | inr h =>
            simp only [posOf, if_neg hci]
            have := ih ⟨info, h, hidx⟩
            cases hpos : posOf rest idx with
            | none => rw [hpos] at this; simp at this
            | some j => simp [hpos]

/-- soundness of the seek-table binary search: any returned index comes
from an entry whose pts is at or below the target -/
theorem fkSearchGo_sound (es : List (Nat × Nat)) (t : Nat) :
    ∀ (fuel : Nat) (lo hi : Int) (res : Option Nat),
      0 ≤ lo → hi < (es.length : Int) →
      (∀ i, res = some i → ∃ e ∈ es, e.2 = i ∧ e.1 ≤ t) →
      ∀ i, fkSearchGo es t fuel lo hi res = some i → ∃ e ∈ es, e.2 = i ∧ e.1 ≤ t := by
  intro fuel
  induction fuel with
  | zero =>
      intro lo hi res _ _ hres i h
      exact hres i h
  | succ f ih =>
      intro lo hi res hlo hhi hres i h
      by_cases hcmp : lo ≤ hi
      · have hmidlo : lo ≤ (lo + hi) / 2 := by omega
        have hmidhi : (lo + hi) / 2 ≤ hi := by omega
        have hmidlt : ((lo + hi) / 2).toNat < es.length := by omega
        have hget : es.getD ((lo + hi) / 2).toNat (0, 0) =
            es.get ⟨((lo + hi) / 2).toNat, hmidlt⟩ := List.getD_eq_getElem es (0, 0) hmidlt
        have hmem : es.getD ((lo + hi) / 2).toNat (0, 0) ∈ es := by
          rw [hget]; exact List.get_mem es _ hmidlt
        simp only [fkSearchGo, if_pos hcmp] at h
        by_cases hle : (es.getD ((lo + hi) / 2).toNat (0, 0)).1 ≤ t
        · rw [if_pos hle] at h
          exact ih ((lo + hi) / 2 + 1) hi (some (es.getD ((lo + hi) / 2).toNat (0, 0)).2)
            (by omega) hhi
            (fun j hj => ⟨es.getD ((lo + hi) / 2).toNat (0, 0), hmem,
              Option.some.inj hj, hle⟩) i h
        · rw [if_neg hle] at h
          exact ih lo ((lo + hi) / 2 - 1) res hlo (by omega) hres i h
      · simp only [fkSearchGo, if_neg hcmp] at h
        exact hres i h

/-- the search never discards an already-found result -/
theorem fkSearchGo_mono (es : List (Nat × Nat)) (t : Nat) :
    ∀ (fuel : Nat) (lo hi : Int) (res : Option Nat), res.isSome = true →
      (fkSearchGo es t fuel lo hi res).isSome = true := by
  intro fuel
  induction fuel with
  | zero => intro lo hi res h; exact h
  | succ f ih =>
      intro lo hi res h
      by_cases hcmp : lo ≤ hi
      · simp only [fkSearchGo, if_pos hcmp]
        by_cases hle : (es.getD ((lo + hi) / 2).toNat (0, 0)).1 ≤ t
        · rw [if_pos hle]; exact ih _ _ _ (by simp)
        · rw [if_neg hle]; exact ih _ _ _ h
      · simpa [fkSearchGo, if_neg hcmp] using h

/-- completeness of the binary search on a sorted table: when some entry
has pts at or below the target, a result is found (starting from lower
bound zero, where the smallest pts lives) -/
theorem fkSearchGo_complete (e0 : Nat × Nat) (es : List (Nat × Nat)) (t : Nat)
    (_hsor : List.Pairwise (fun a b => a.1 ≤ b.1) (e0 :: es)) (he0 : e0.1 ≤ t) :
    ∀ (fuel : Nat) (hi : Int), 0 ≤ hi → hi < ((e0 :: es).length : Int) →
      hi.toNat + 1 ≤ fuel →
      (fkSearchGo (e0 :: es) t fuel 0 hi none).isSome = true := by
  intro fuel
  induction fuel with
  | zero => intro hi h0 _ hfuel; omega
  | succ f ih =>
      intro hi h0 hhi hfuel
      have hcmp : (0 : Int) ≤ hi := h0
      simp only [fkSearchGo, if_pos hcmp]
      by_cases hle : ((e0 :: es).getD ((0 + hi) / 2).toNat (0, 0)).1 ≤ t
      · rw [if_pos hle]
        exact fkSearchGo_mono _ _ _ _ _ _ (by simp)
      · rw [if_neg hle]
        have hmidpos : (0 + hi) / 2 ≠ 0 := by
          intro hz
          rw [hz] at hle
          simp only [Int.toNat_zero] at hle
          exact hle (by simpa [List.getD] using he0)
        have hmid0 : 0 ≤ (0 + hi) / 2 := by omega
        have hmidhi : (0 + hi) / 2 ≤ hi := by omega
        exact ih ((0 + hi) / 2 - 1) (by omega) (by omega) (by omega)

/-- the fallback scan: it returns, its result is sound, and it finds a
result whenever an I-block of the track at or before the target exists
(or one was already in hand) -/
theorem fkScanGo_post (tid t : Nat) :
    ∀ (l : List MInfo) (best : Option Nat), coreUnwrapOk l →
      ∃ b, fkScanGo tid t l best = .ok b ∧
        (∀ i, b = some i →
          (∃ info ∈ l, info.index = i ∧ infoIsI info tid = true ∧ infoPts info ≤ t) ∨
            best = some i) ∧
        (((∃ info ∈ l, infoIsI info tid = true ∧ infoPts info ≤ t) ∨ best.isSome = true) →
          b.isSome = true) := by
  intro l
  induction l with
  | nil =>
      intro best _
      refine ⟨best, rfl, fun i h => Or.inr h, fun h => ?_⟩
      rcases h with ⟨info, h, _⟩ | h
      · simp at h
      · exact h
  | cons ci rest ih =>
      intro best hwf
      have hwfRest : coreUnwrapOk rest := fun info h => hwf info (List.mem_cons_of_mem _ h)
      by_cases hcore : ci.ctype = tagCORE
      · have hok := hwf ci (by simp) hcore
        obtain ⟨tb, htb⟩ : ∃ tb, unwrap_core_payload ci.payload = .ok tb := by
          cases hu : unwrap_core_payload ci.payload with
          | ok v => exact ⟨v, rfl⟩
          | error e => rw [hu] at hok; simp [Except.isOk, Except.toBool] at hok
        obtain ⟨ctid, blob⟩ := tb
        have htrack : trackOfB ci = some ctid := by
          unfold trackOfB
          rw [htb]
          rfl
        have hunfold : fkScanGo tid t (ci :: rest) best =
            (if ctid ≠ tid then fkScanGo tid t rest best
             else if (parse_flags ci.flags).2 = 0 ∧ (parse_flags ci.flags).1 ≤ t then
               fkScanGo tid t rest (some ci.index)
             else fkScanGo tid t rest best) := by
          simp only [fkScanGo, if_neg (by simp [hcore] : ¬ci.ctype ≠ tagCORE), htb,
            Bind.bind, Except.bind]
        by_cases htid : ctid = tid
        · rw [if_neg (by simp [htid])] at hunfold
          by_cases hsel : (parse_flags ci.flags).2 = 0 ∧ (parse_flags ci.flags).1 ≤ t
          · rw [if_pos hsel] at hunfold
            obtain ⟨b, hb, hsound, hcompl⟩ := ih (some ci.index) hwfRest
            refine ⟨b, by rw [hunfold]; exact hb, ?_, ?_⟩
            · intro i hi
              rcases hsound i hi with ⟨info, hm, rest2⟩ | h
              · exact Or.inl ⟨info, List.mem_cons_of_mem _ hm, rest2⟩
              · refine Or.inl ⟨ci, by simp, Option.some.inj h, ?_, hsel.2⟩
                rw [infoIsI_iff]
                exact ⟨hcore, hsel.1, by rw [htrack, htid]⟩
            · intro _
              exact hcompl (Or.inr (by simp))
          · rw [if_neg hsel] at hunfold
            obtain ⟨b, hb, hsound, hcompl⟩ := ih best hwfRest
            refine ⟨b, by rw [hunfold]; exact hb, ?_, ?_⟩
            · intro i hi
              rcases hsound i hi with ⟨info, hm, rest2⟩ | h
              · exact Or.inl ⟨info, List.mem_cons_of_mem _ hm, rest2⟩
              · exact Or.inr h
            · intro h
              apply hcompl
              rcases h with ⟨info, hm, hisI, hpts⟩ | h
              · simp only [List.mem_cons] at hm
                cases hm with
                | inl he =>
                    exfalso
                    subst he
                    rw [infoIsI_iff] at hisI
                    exact hsel ⟨hisI.2.1, hpts⟩
                | inr hm => exact Or.inl ⟨info, hm, hisI, hpts⟩
              · exact Or.inr h
        · rw [if_pos htid] at hunfold
          obtain ⟨b, hb, hsound, hcompl⟩ := ih best hwfRest
          refine ⟨b, by rw [hunfold]; exact hb, ?_, ?_⟩
          · intro i hi
            rcases hsound i hi with ⟨info, hm, rest2⟩ | h
            · exact Or.inl ⟨info, List.mem_cons_of_mem _ hm, rest2⟩
            · exact Or.inr h
          · intro h
            apply hcompl
            rcases h with ⟨info, hm, hisI, hpts⟩ | h
            · simp only [List.mem_cons] at hm
              cases hm with
              | inl he =>
                  exfalso
                  subst he
                  rw [infoIsI_iff] at hisI
                  rw [htrack] at hisI
                  exact htid (by simpa using hisI.2.2)
              | inr hm => exact Or.inl ⟨info, hm, hisI, hpts⟩
            · exact Or.inr h
      · obtain ⟨b, hb, hsound, hcompl⟩ := ih best hwfRest
        refine ⟨b, ?_, ?_, ?_⟩
        · simpa [fkScanGo, hcore] using hb
        · intro i hi
          rcases hsound i hi with ⟨info, hm, rest2⟩ | h
          · exact Or.inl ⟨info, List.mem_cons_of_mem _ hm, rest2⟩
          · exact Or.inr h
        · intro h
          apply hcompl
          rcases h with ⟨info, hm, hisI, hpts⟩ | h
          · simp only [List.mem_cons] at hm
            cases hm with
            | inl he =>
                exfalso
                subst he
                rw [infoIsI_iff] at hisI
                exact hcore hisI.1
            | inr hm => exact Or.inl ⟨info, hm, hisI, hpts⟩
          · exact Or.inr h

/-- the chain-collection loop returns, and every collected index belongs
to a CORE chunk of the track with a non-I kind and pts at or below the
target -/
theorem chainGo_post (tid t : Nat) :
    ∀ (l : List MInfo), coreUnwrapOk l →
      ∃ ch, chainGo tid t l = .ok ch ∧
        ∀ i ∈ ch, ∃ info ∈ l, info.index = i ∧ info.ctype = tagCORE ∧
          trackOfB info = some tid ∧ infoKind info ≠ 0 ∧ infoPts info ≤ t := by
  intro l
  induction l with
  | nil => exact fun _ => ⟨[], rfl, by simp⟩
  | cons ci rest ih =>
      intro hwf
      have hwfRest : coreUnwrapOk rest := fun info h => hwf info (List.mem_cons_of_mem _ h)
      by_cases hcore : ci.ctype = tagCORE
      · have hok := hwf ci (by simp) hcore
        obtain ⟨tb, htb⟩ : ∃ tb, unwrap_core_payload ci.payload = .ok tb := by
          cases hu : unwrap_core_payload ci.payload with
          | ok v => exact ⟨v, rfl⟩
          | error e => rw [hu] at hok; simp [Except.isOk, Except.toBool] at hok
        obtain ⟨ctid, blob⟩ := tb
        have htrack : trackOfB ci = some ctid := by
          unfold trackOfB
          rw [htb]
          rfl
        have hunfold : chainGo tid t (ci :: rest) =
            (if ctid ≠ tid then chainGo tid t rest
             else if (parse_flags ci.flags).2 = 0 then .ok []
             else if (parse_flags ci.flags).1 > t then .ok []
             else do
               let l2 ← chainGo tid t rest
               .ok (ci.index :: l2)) := by
          simp only [chainGo, if_neg (by simp [hcore] : ¬ci.ctype ≠ tagCORE), htb,
            Bind.bind, Except.bind]
        by_cases htid : ctid = tid
        · rw [if_neg (by simp [htid])] at hunfold
          by_cases hI : (parse_flags ci.flags).2 = 0
          · rw [if_pos hI] at hunfold
            exact ⟨[], hunfold, by simp⟩
          · rw [if_neg hI] at hunfold
            by_cases hpts : (parse_flags ci.flags).1 > t
            · rw [if_pos hpts] at hunfold
              exact ⟨[], hunfold, by simp⟩
            · rw [if_neg hpts] at hunfold
              obtain ⟨ch, hch, hprops⟩ := ih hwfRest
              refine ⟨ci.index :: ch, ?_, ?_⟩
              · rw [hunfold]
                simp [Bind.bind, Except.bind, hch]
              · intro i hi
                simp only [List.mem_cons] at hi
                cases hi with
                | inl he =>
                    subst he
                    exact ⟨ci, by simp, rfl, hcore, by rw [htrack, htid],
                      by simpa [infoKind] using hI, by simpa [infoPts] using hpts⟩
                | inr hm =>
                    obtain ⟨info, hm2, h⟩ := hprops i hm
                    exact ⟨info, List.mem_cons_of_mem _ hm2, h⟩
        · rw [if_pos htid] at hunfold
          obtain ⟨ch, hch, hprops⟩ := ih hwfRest
          refine ⟨ch, by rw [hunfold]; exact hch, ?_⟩
          intro i hi
          obtain ⟨info, hm, h⟩ := hprops i hi
          exact ⟨info, List.mem_cons_of_mem _ hm, h⟩
      · obtain ⟨ch, hch, hprops⟩ := ih hwfRest
        refine ⟨ch, ?_, ?_⟩
        · simpa [chainGo, hcore] using hch
        · intro i hi
          obtain ⟨info, hm, h⟩ := hprops i hi
          exact ⟨info, List.mem_cons_of_mem _ hm, h⟩

/-- keyframe resolution on a well-indexed container: whenever a keyframe
at or before the target exists, `find_keyframe_for_time` returns some
chunk offset holding an I-block of the track with pts at or below the
target -/
theorem find_keyframe_post (cs : List MChunk) (tid t : Nat)
    (hw : WellIndexed cs tid) (hk : KeyframeExists cs tid t) :
    ∃ i, find_keyframe_for_time cs tid t = .ok (some i) ∧
      ∃ info ∈ minfos cs, info.index = i ∧ infoIsI info tid = true ∧ infoPts info ≤ t := by
  obtain ⟨hcore, m, hm, hcase⟩ := hw
  have hscan : (alLookup m tid = none ∨ alLookup m tid = some []) →
      ∃ i, find_keyframe_for_time cs tid t = .ok (some i) ∧
        ∃ info ∈ minfos cs, info.index = i ∧ infoIsI info tid = true ∧ infoPts info ≤ t := by
    intro hl
    obtain ⟨b, hb, hsound, hcompl⟩ := fkScanGo_post tid t (minfos cs) none hcore
    have hbs : b.isSome = true := by
      apply hcompl
      obtain ⟨info, hmem, hisI, hpts⟩ := hk
      exact Or.inl ⟨info, hmem, hisI, hpts⟩
    obtain ⟨i, hi⟩ := Option.isSome_iff_exists.mp hbs
    have hgood := hsound i hi
    rcases hgood with ⟨info, hmem, hidx, hisI, hpts⟩ | h
    · refine ⟨i, ?_, info, hmem, hidx, hisI, hpts⟩
      simp only [find_keyframe_for_time, hm, Bind.bind, Except.bind]
      cases hl with
      | inl h0 => rw [h0]; rw [← hi]; exact hb
      | inr h0 => rw [h0]; simp only [List.isEmpty_nil, if_pos rfl]; rw [← hi]; exact hb
    · simp at h
  rcases hcase with hnone | ⟨es, hes, hcase2⟩
  · exact hscan (Or.inl hnone)
  · rcases hcase2 with hesnil | hexact
    · exact hscan (Or.inr (hesnil ▸ hes))
    · obtain ⟨hsor, hpoint, hcompl2⟩ := hexact
      obtain ⟨info, hmem, hisI, hpts⟩ := hk
      have hin : (infoPts info, info.index) ∈ es := hcompl2 info hmem hisI
      cases es with
      | nil => simp at hin
      | cons e0 es' =>
          have he0 : e0.1 ≤ t := by
            rcases List.mem_cons.mp hin with he | he
            · rw [← he]; exact hpts
            · have := (List.pairwise_cons.mp hsor).1 _ he
              simpa using le_trans this hpts
          have hsearch := fkSearchGo_complete e0 es' t hsor he0
            ((e0 :: es').length + 2) (((e0 :: es').length : Int) - 1)
            (by simp) (by omega) (by omega)
          obtain ⟨i, hi⟩ := Option.isSome_iff_exists.mp hsearch
          obtain ⟨e, heme, hei, hept⟩ := fkSearchGo_sound (e0 :: es') t
            ((e0 :: es').length + 2) 0 (((e0 :: es').length : Int) - 1) none
            (by omega) (by omega) (by intro j hj; simp at hj) i hi
          obtain ⟨info2, hmem2, hidx2, hisI2, hpts2⟩ := hpoint e heme
          refine ⟨i, ?_, info2, hmem2, by rw [hidx2, hei], hisI2, by omega⟩
          simp only [find_keyframe_for_time, hm, Bind.bind, Except.bind, hes]
          simp only [List.isEmpty_cons, Bool.false_eq_true, if_false]
          rw [hi]

/-- C4 counterexample: in `c4Bad` a keyframe of track 0 at or before time
0 exists, but the decode chain starts (and ends) at chunk offset 28,
which is a P-block, because the seek table points there -/
theorem c4_counterexample_lying_seek_table :
    KeyframeExists c4Bad 0 0 ∧
    get_decode_chain c4Bad 0 0 = .ok [28] ∧
    (∀ info ∈ minfos c4Bad, info.index = 28 → infoKind info = 1) := by
  refine ⟨?_, by decide, by decide⟩
  unfold KeyframeExists
  decide

/-- C4 amended: on a well-indexed container (CORE payloads track-wrapped
and the track's seek table, when present and non-empty, sorted and
exact), whenever a keyframe of the track at or before `t` exists the
decode chain is non-empty, starts at an I-block of the track with pts at
or below `t`, contains only blocks of that track with pts at or below
`t`, and contains no I-block after the first element -/
theorem c4_amended_decode_chain (cs : List MChunk) (tid t : Nat)
    (hw : WellIndexed cs tid) (hk : KeyframeExists cs tid t) :
    ∃ ch, get_decode_chain cs tid t = .ok ch ∧ ch ≠ [] ∧
      (∀ i0 ∈ ch.head?, ∃ info ∈ minfos cs, info.index = i0 ∧ infoIsI info tid = true ∧
        infoPts info ≤ t) ∧
      (∀ k ∈ ch, ∃ info ∈ minfos cs, info.index = k ∧ info.ctype = tagCORE ∧
        trackOfB info = some tid ∧ infoPts info ≤ t) ∧
      (∀ k ∈ ch.tail, ∀ info ∈ minfos cs, info.index = k → infoKind info ≠ 0) := by
  obtain ⟨i, hfk, info, hmem, hidx, hisI, hpts⟩ := find_keyframe_post cs tid t hw hk
  have hposS := posOf_isSome i (minfos cs) ⟨info, hmem, hidx⟩
  obtain ⟨j, hj⟩ := Option.isSome_iff_exists.mp hposS
  have hcoreDrop : coreUnwrapOk ((minfos cs).drop (j + 1)) :=
    fun x hx hc => hw.1 x (List.drop_subset _ _ hx) hc
  obtain ⟨l, hl, hprops⟩ := chainGo_post tid t ((minfos cs).drop (j + 1)) hcoreDrop
  refine ⟨i :: l, ?_, by simp, ?_, ?_, ?_⟩
  · simp only [get_decode_chain, Bind.bind, Except.bind, hfk, hj, hl]
  · intro i0 h0
    simp only [List.head?_cons, Option.mem_def, Option.some.injEq] at h0
    subst h0
    exact ⟨info, hmem, hidx, hisI, hpts⟩
  · intro k hkmem
    simp only [List.mem_cons] at hkmem
    cases hkmem with
    | inl he =>
        subst he
        rw [infoIsI_iff] at hisI
        exact ⟨info, hmem, hidx, hisI.1, hisI.2.2, hpts⟩
    | inr hm =>
        obtain ⟨info2, hm2, hidx2, hc2, htr2, _, hpt2⟩ := hprops k hm
        exact ⟨info2, List.drop_subset _ _ hm2, hidx2, hc2, htr2, hpt2⟩
  · intro k hkmem info3 hmem3 hidx3
    simp only [List.tail_cons] at hkmem
    obtain ⟨info2, hm2, hidx2, _, _, hkind2, _⟩ := hprops k hkmem
    have : info3 = info2 :=
      minfosGo_index_inj cs 16 info3 hmem3 info2 (List.drop_subset _ _ hm2)
        (by rw [hidx3, hidx2])
    rw [this]
    exact hkind2

/-- C4 amended witness: in `c4Good` (exact seek table, I-block at pts 0
and P-block at pts 5), the decode chain for time 5 exists, is non-empty,
and satisfies the chain guarantees -/
theorem c4_amended_witness :
    ∃ ch, get_decode_chain c4Good 0 5 = .ok ch ∧ ch ≠ [] ∧
      (∀ i0 ∈ ch.head?, ∃ info ∈ minfos c4Good, info.index = i0 ∧ infoIsI info 0 = true ∧
        infoPts info ≤ 5) ∧
      (∀ k ∈ ch, ∃ info ∈ minfos c4Good, info.index = k ∧ info.ctype = tagCORE ∧
        trackOfB info = some 0 ∧ infoPts info ≤ 5) ∧
      (∀ k ∈ ch.tail, ∀ info ∈ minfos c4Good, info.index = k → infoKind info ≠ 0) :=
  c4_amended_decode_chain c4Good 0 5
    ⟨by unfold coreUnwrapOk; decide,
     [(0, [(0, 28)])], by decide,
     Or.inr ⟨[(0, 28)], by decide,
       Or.inr ⟨by decide, by unfold minfos; decide, by unfold minfos; decide⟩⟩⟩
    ⟨⟨tagCORE, 0, 28, wrapT0⟩, by unfold minfos; decide, by decide, by decide⟩

/-!
Claim C9.  Replay of a cached out-of-order counter.  The first decrypt of
the counter-1 message takes the out-of-order path: it precomputes and
caches the keys for counters 0 and 1, pops the key for 1, and succeeds
without advancing `recv_counter`.  Replaying the very same message then
does not fail with a Replay error: the counter is no longer cached, so
the `counter > recv_counter` path precomputes the same keys again from
the unchanged receive chain key, and decryption succeeds a second time.
-/

/-- C9: after a successful out-of-order decrypt at counter 1 has popped
the cached key (the cache lookup for 1 is empty afterwards) and left
`recv_counter` at 0, a second decrypt of the same message succeeds again
instead of failing with Replay -/
theorem c9_cached_counter_replay_succeeds :
    (lcDecrypt c9State c9Header c9Ct []).1 = .ok [109, 115, 103, 49] ∧
    (lcDecrypt c9State c9Header c9Ct []).2.recv_counter = 0 ∧
    alLookup (lcDecrypt c9State c9Header c9Ct []).2.skipped_keys 1 = none ∧
    (lcDecrypt (lcDecrypt c9State c9Header c9Ct []).2 c9Header c9Ct []).1 =
      .ok [109, 115, 103, 49] := by
  decide

/-!
Claim C7.  The in-order path is the only path of `decrypt` that commits
the transcript and advances the receive counter.
-/

/-- the DH mix leaves the receive counter unchanged -/
theorem dhMix_recv (s : LivingState) (dh : Option Bytes) :
    (dhMix s dh).recv_counter = s.recv_counter := by
  cases dh with
  | none => rfl
  | some pub => simp [dhMix]

/-- the DH mix leaves the transcript unchanged -/
theorem dhMix_transcript (s : LivingState) (dh : Option Bytes) :
    (dhMix s dh).transcript = s.transcript := by
  cases dh with
  | none => rfl
  | some pub => simp [dhMix]

/-- the DH mix leaves the window unchanged -/
theorem dhMix_window (s : LivingState) (dh : Option Bytes) :
    (dhMix s dh).ooo_window = s.ooo_window := by
  cases dh with
  | none => rfl
  | some pub => simp [dhMix]

/-- eviction only touches the cache -/
theorem evictSkipped_recv (s : LivingState) :
    (evictSkipped s).recv_counter = s.recv_counter := rfl

/-- eviction only touches the cache -/
theorem evictSkipped_transcript (s : LivingState) :
    (evictSkipped s).transcript = s.transcript := rfl

/-- precomputation only touches the cache -/
theorem precompute_recv (s : LivingState) (target : Nat) :
    (precomputeSkippedKeys s target).recv_counter = s.recv_counter := rfl

/-- precomputation only touches the cache -/
theorem precompute_transcript (s : LivingState) (target : Nat) :
    (precomputeSkippedKeys s target).transcript = s.transcript := rfl

/-- C7: `decrypt` increments the receive counter and commits the
transcript exactly when the spelled-out in-order success condition
holds (header parses with the state's suite, in-order uncached counter,
matching previous transcript, valid tag); every other call — including
every cached-key or out-of-order decrypt, successful or not — leaves
both the transcript and the receive counter unchanged -/
theorem c7_commit_iff_in_order (s : LivingState) (h ct aad : Bytes) :
    (inOrderCommitB s h ct aad = true →
      (lcDecrypt s h ct aad).2.recv_counter = s.recv_counter + 1 ∧
      (lcDecrypt s h ct aad).2.transcript = update_transcript s.transcript h ct ∧
      (lcDecrypt s h ct aad).1.isOk = true) ∧
    (inOrderCommitB s h ct aad = false →
      (lcDecrypt s h ct aad).2.recv_counter = s.recv_counter ∧
      (lcDecrypt s h ct aad).2.transcript = s.transcript) := by
  unfold lcDecrypt inOrderCommitB
  cases hp : parseHeaderV3 h with
  | error e => exact ⟨fun hc => by simp at hc, fun _ => ⟨rfl, rfl⟩⟩
  | ok v =>
      obtain ⟨su, ctr, prev, fl, dh⟩ := v
      dsimp only []
      by_cases hsu : su ≠ s.suite
      · simp only [if_pos hsu]
        constructor
        · intro hc
          simp at hc
        · intro _
          exact ⟨by trivial, by trivial⟩
      · simp only [if_neg hsu]
        by_cases hwin : ctr < (dhMix s dh).recv_counter - (dhMix s dh).ooo_window
        · rw [if_pos hwin]
          constructor
          · intro hc
            simp only [Bool.and_eq_true, decide_eq_true_eq] at hc
            exact absurd hc.1.1.1 (by omega)
          · intro _
            exact ⟨by simp [dhMix_recv], by simp [dhMix_transcript]⟩
        · rw [if_neg hwin]
          cases hpop : alPop (dhMix s dh).skipped_keys ctr with
          | some p =>
              obtain ⟨mk, rest⟩ := p
              dsimp only []
              constructor
              · intro hc
                simp at hc
              · intro _
                cases haes : aesgcmDecrypt mk (hkdf mk (nonceInfoPre ++ u64be ctr) 12) ct
                    (aad ++ h) with
                | some pt => exact ⟨by simp [dhMix_recv], by simp [dhMix_transcript]⟩
                | none => exact ⟨by simp [dhMix_recv], by simp [dhMix_transcript]⟩
          | none =>
              by_cases hgt : ctr > (dhMix s dh).recv_counter
              · rw [if_pos hgt]
                constructor
                · intro hc
                  simp only [Bool.and_eq_true, decide_eq_true_eq] at hc
                  exact absurd hc.1.1.1 (by omega)
                · intro _
                  by_cases hfar : ctr - (dhMix s dh).recv_counter > (dhMix s dh).ooo_window
                  · rw [if_pos hfar]
                    exact ⟨by simp [dhMix_recv], by simp [dhMix_transcript]⟩
                  · rw [if_neg hfar]
                    cases hpop2 : alPop (precomputeSkippedKeys (dhMix s dh) ctr).skipped_keys
                        ctr with
                    | some p2 =>
                        obtain ⟨mk2, rest2⟩ := p2
                        dsimp only []
                        cases haes : aesgcmDecrypt mk2
                            (hkdf mk2 (nonceInfoPre ++ u64be ctr) 12) ct (aad ++ h) with
                        | some pt =>
                            exact ⟨by simp [evictSkipped_recv, precompute_recv, dhMix_recv],
                              by simp [evictSkipped_transcript, precompute_transcript,
                                dhMix_transcript]⟩
                        | none =>
                            exact ⟨by simp [precompute_recv, dhMix_recv],
                              by simp [precompute_transcript, dhMix_transcript]⟩
                    | none =>
                        exact ⟨by simp [precompute_recv, dhMix_recv],
                          by simp [precompute_transcript, dhMix_transcript]⟩
              · rw [if_neg hgt]
                by_cases hne2 : ctr ≠ (dhMix s dh).recv_counter
                · rw [if_pos hne2]
                  constructor
                  · intro hc
                    simp only [Bool.and_eq_true, decide_eq_true_eq] at hc
                    exact absurd hc.1.1.1 hne2
                  · intro _
                    exact ⟨by simp [dhMix_recv], by simp [dhMix_transcript]⟩
                · rw [if_neg hne2]
                  push_neg at hne2
                  by_cases htr : prev ≠ (dhMix s dh).transcript
                  · rw [if_pos htr]
                    constructor
                    · intro hc
                      simp only [Bool.and_eq_true, decide_eq_true_eq] at hc
                      exact absurd hc.1.2 htr
                    · intro _
                      exact ⟨by simp [dhMix_recv], by simp [dhMix_transcript]⟩
                  · rw [if_neg htr]
                    push_neg at htr
                    cases haes : aesgcmDecrypt
                        (ratchet_step (dhMix s dh).chain_key_recv
                          ((dhMix s dh).suite ++ ratchetSuffix) (dhMix s dh).recv_counter).2
                        (hkdf (ratchet_step (dhMix s dh).chain_key_recv
                          ((dhMix s dh).suite ++ ratchetSuffix) (dhMix s dh).recv_counter).2
                          (nonceInfoPre ++ u64be (dhMix s dh).recv_counter) 12)
                        ct (aad ++ h) with
                    | some pt =>
                        constructor
                        · intro _
                          refine ⟨?_, ?_, ?_⟩
                          · simp [evictSkipped_recv, dhMix_recv]
                          · simp [evictSkipped_transcript, dhMix_transcript]
                          · simp [Except.isOk, Except.toBool]
                        · intro hc
                          simp [hne2, htr] at hc
                    | none =>
                        constructor
                        · intro hc
                          simp at hc
                        · intro _
                          exact ⟨by simp [dhMix_recv], by simp [dhMix_transcript]⟩

/-- the C7 theorem applied at one concrete call: a malformed header is not
an in-order commit and leaves the receive counter and transcript unchanged -/
theorem c7_commit_iff_in_order_witness :
    inOrderCommitB ⟨[], [], [], 0, 0, [7], suiteV3, 8, [], 16, [], none⟩ [1, 2, 3] [] [] =
      false ∧
    (lcDecrypt ⟨[], [], [], 0, 0, [7], suiteV3, 8, [], 16, [], none⟩ [1, 2, 3] [] []).2.recv_counter = 0 ∧
    (lcDecrypt ⟨[], [], [], 0, 0, [7], suiteV3, 8, [], 16, [], none⟩ [1, 2, 3] [] []).2.transcript = [7] := by
  refine ⟨by decide, ?_⟩
  have hm := (c7_commit_iff_in_order ⟨[], [], [], 0, 0, [7], suiteV3, 8, [], 16, [], none⟩
    [1, 2, 3] [] []).2 (by decide)
  exact ⟨hm.1, hm.2⟩

/-!
Claim C8.  The skipped-key cache of every reachable state is bounded.
-/

/-- removing a cached key leaves a sublist -/
theorem alPop_sublist {α : Type} (l : List (Nat × α)) (k : Nat) (v : α)
    (rest : List (Nat × α)) (hp : alPop l k = some (v, rest)) : rest.Sublist l := by
  induction l generalizing v rest with
  | nil => simp [alPop] at hp
  | cons hd tl ih =>
      obtain ⟨k0, v0⟩ := hd
      by_cases hk : k0 = k
      · simp only [alPop, if_pos hk] at hp
        have h2 : tl = rest := congrArg Prod.snd (Option.some.inj hp)
        rw [← h2]
        exact List.sublist_cons_self _ _
      · simp only [alPop, if_neg hk] at hp
        cases hre : alPop tl k with
        | none => rw [hre] at hp; simp at hp
        | some r =>
            obtain ⟨rv, rrest⟩ := r
            rw [hre] at hp
            simp only [Option.map_some'] at hp
            have h2 : (k0, v0) :: rrest = rest := congrArg Prod.snd (Option.some.inj hp)
            rw [← h2]
            exact (ih rv rrest hre).cons₂ _

/-- a failed pop means the key is absent -/
theorem alPop_none {α : Type} (l : List (Nat × α)) (k : Nat)
    (hp : alPop l k = none) : ∀ kv ∈ l, kv.1 ≠ k := by
  induction l with
  | nil => intro kv hkv; simp at hkv
  | cons hd tl ih =>
      obtain ⟨k0, v0⟩ := hd
      by_cases hk : k0 = k
      · simp [alPop, hk] at hp
      · simp only [alPop, if_neg hk] at hp
        have hre : alPop tl k = none := by
          cases hq : alPop tl k with
          | none => rfl
          | some r => rw [hq] at hp; simp at hp
        intro kv hkv
        rcases List.mem_cons.mp hkv with h1 | h2
        · rw [h1]; exact hk
        · exact ih hre kv h2

/-- every entry after an insert was there before or carries the new key -/
theorem alSet_mem {α : Type} (l : List (Nat × α)) (k : Nat) (v : α) (kv : Nat × α)
    (hm : kv ∈ alSet l k v) : kv ∈ l ∨ kv.1 = k := by
  induction l with
  | nil =>
      simp [alSet] at hm
      right
      rw [hm]
  | cons hd tl ih =>
      obtain ⟨k0, v0⟩ := hd
      by_cases hk : k0 = k
      · simp only [alSet, if_pos hk] at hm
        rcases List.mem_cons.mp hm with h1 | h2
        · right; rw [h1]; exact hk
        · exact Or.inl (List.mem_cons_of_mem _ h2)
      · simp only [alSet, if_neg hk] at hm
        rcases List.mem_cons.mp hm with h1 | h2
        · left; rw [h1]; exact List.mem_cons_self _ _
        · rcases ih h2 with h3 | h3
          · exact Or.inl (List.mem_cons_of_mem _ h3)
          · exact Or.inr h3

/-- insertion keeps the keys distinct -/
theorem alSet_keys_nodup {α : Type} (l : List (Nat × α)) (k : Nat) (v : α)
    (hn : (l.map Prod.fst).Nodup) : ((alSet l k v).map Prod.fst).Nodup := by
  induction l with
  | nil => simp [alSet]
  | cons hd tl ih =>
      obtain ⟨k0, v0⟩ := hd
      by_cases hk : k0 = k
      · simp only [alSet, if_pos hk]
        simpa using hn
      · simp only [alSet, if_neg hk, List.map_cons, List.nodup_cons] at hn ⊢
        refine ⟨?_, ih hn.2⟩
        intro hmem
        obtain ⟨kv, hkv, hfx⟩ := List.mem_map.mp hmem
        rcases alSet_mem tl k v kv hkv with h1 | h1
        · exact hn.1 (hfx ▸ List.mem_map_of_mem Prod.fst h1)
        · exact hk (by rw [← hfx, h1])

/-- keys produced by the precompute loop: either old, or in `[i, i + n)` -/
theorem precomputeGo_mem (ctx : Bytes) (n : Nat) :
    ∀ (ck : Bytes) (i : Nat) (m : List (Nat × Bytes)) (kv : Nat × Bytes),
      kv ∈ precomputeGo ctx n ck i m → kv ∈ m ∨ (i ≤ kv.1 ∧ kv.1 < i + n) := by
  induction n with
  | zero => intro ck i m kv hm; exact Or.inl hm
  | succ n ih =>
      intro ck i m kv hm
      simp only [precomputeGo] at hm
      rcases ih _ _ _ kv hm with h1 | h1
      · rcases alSet_mem m i _ kv h1 with h2 | h2
        · exact Or.inl h2
        · exact Or.inr ⟨by omega, by omega⟩
      · exact Or.inr ⟨by omega, by omega⟩

/-- the precompute loop keeps keys distinct -/
theorem precomputeGo_nodup (ctx : Bytes) (n : Nat) :
    ∀ (ck : Bytes) (i : Nat) (m : List (Nat × Bytes)),
      (m.map Prod.fst).Nodup → ((precomputeGo ctx n ck i m).map Prod.fst).Nodup := by
  induction n with
  | zero => intro ck i m hn; exact hn
  | succ n ih =>
      intro ck i m hn
      simp only [precomputeGo]
      exact ih _ _ _ (alSet_keys_nodup m i _ hn)

/-- the invariant only reads the cache, the receive counter and window -/
theorem skInv_of_parts (t s : LivingState) (hsk : t.skipped_keys = s.skipped_keys)
    (hr : t.recv_counter = s.recv_counter) (hw : t.ooo_window = s.ooo_window)
    (hs : SkInv s) : SkInv t := by
  unfold SkInv at hs ⊢
  rw [hsk, hr, hw]
  exact hs

/-- an empty cache always satisfies the invariant -/
theorem skInv_nil (t : LivingState) (hsk : t.skipped_keys = []) : SkInv t := by
  unfold SkInv
  rw [hsk]
  exact ⟨List.nodup_nil, fun kv hkv => absurd hkv (List.not_mem_nil kv), fun _ => rfl⟩

/-- the DH mix preserves the invariant (it clears the cache) -/
theorem skInv_dhMix (s : LivingState) (dh : Option Bytes) (hs : SkInv s) :
    SkInv (dhMix s dh) := by
  cases dh with
  | none => exact hs
  | some pub => exact skInv_nil _ (by simp [dhMix])

/-- eviction preserves the invariant -/
theorem skInv_evict (t : LivingState) (ht : SkInv t) : SkInv (evictSkipped t) := by
  obtain ⟨hnd, hb, hw⟩ := ht
  unfold SkInv evictSkipped
  dsimp only []
  refine ⟨?_, ?_, ?_⟩
  · exact List.Nodup.sublist ((List.filter_sublist _).map Prod.fst) hnd
  · intro kv hkv
    exact hb kv (List.mem_filter.mp hkv).1
  · intro h0
    rw [hw h0]
    simp

/-- popping a cached key preserves the invariant -/
theorem skInv_pop (t : LivingState) (k : Nat) (mk : Bytes) (rest : List (Nat × Bytes))
    (ht : SkInv t) (hp : alPop t.skipped_keys k = some (mk, rest)) :
    SkInv { t with skipped_keys := rest } := by
  obtain ⟨hnd, hb, hw⟩ := ht
  have hsub := alPop_sublist _ _ _ _ hp
  unfold SkInv
  dsimp only []
  refine ⟨List.Nodup.sublist (hsub.map Prod.fst) hnd, ?_, ?_⟩
  · intro kv hkv
    exact hb kv (hsub.subset hkv)
  · intro h0
    rw [hw h0] at hp
    simp [alPop] at hp

/-- in-window precomputation preserves the invariant -/
theorem skInv_precompute (s1 : LivingState) (counter : Nat) (hs1 : SkInv s1)
    (hgt : s1.recv_counter < counter)
    (hle : counter - s1.recv_counter ≤ s1.ooo_window) :
    SkInv (precomputeSkippedKeys s1 counter) := by
  obtain ⟨hnd, hb, hw⟩ := hs1
  unfold SkInv precomputeSkippedKeys evictSkipped
  dsimp only []
  refine ⟨?_, ?_, ?_⟩
  · exact List.Nodup.sublist ((List.filter_sublist _).map Prod.fst)
      (precomputeGo_nodup _ _ _ _ _ hnd)
  · intro kv hkv
    have h1 := List.mem_filter.mp hkv
    have h2 := precomputeGo_mem _ _ _ _ _ kv h1.1
    have hup : kv.1 ≤ s1.recv_counter + s1.ooo_window := by
      have h3 := h1.2
      simp only [Bool.and_eq_true, decide_eq_true_eq] at h3
      exact h3.2
    refine ⟨?_, hup⟩
    rcases h2 with hold | hnew
    · exact (hb kv hold).1
    · exact hnew.1
  · intro h0
    exact absurd hgt (by omega)

/-- `encrypt` preserves the invariant: it never adds a skipped key and
never touches the receive counter or window -/
theorem skInv_enc (s : LivingState) (pt aad fresh : Bytes) (hs : SkInv s) :
    SkInv (lcEncrypt s pt aad fresh).2 := by
  unfold lcEncrypt
  dsimp only []
  by_cases hsr : shouldRootRatchet s.send_counter s.root_ratchet_every = true
  · simp only [if_pos hsr]
    cases hrp : s.remote_dh_pub with
    | some rp =>
        split
        · exact skInv_nil _ (by simp)
        · exact skInv_nil _ (by simp)
    | none =>
        split
        · exact skInv_of_parts _ s rfl rfl rfl hs
        · exact skInv_of_parts _ s rfl rfl rfl hs
  · simp only [if_neg hsr]
    split
    · exact skInv_of_parts _ s rfl rfl rfl hs
    · exact skInv_of_parts _ s rfl rfl rfl hs

/-- `decrypt` preserves the invariant on every path -/
theorem skInv_dec (s : LivingState) (h ct aad : Bytes) (hs : SkInv s) :
    SkInv (lcDecrypt s h ct aad).2 := by
  unfold lcDecrypt
  cases hp : parseHeaderV3 h with
  | error e => exact hs
  | ok v =>
      obtain ⟨su, ctr, prev, fl, dh⟩ := v
      dsimp only []
      by_cases hsu : su ≠ s.suite
      · rw [if_pos hsu]; exact hs
      · rw [if_neg hsu]
        have hs1 : SkInv (dhMix s dh) := skInv_dhMix s dh hs
        by_cases hwin : ctr < (dhMix s dh).recv_counter - (dhMix s dh).ooo_window
        · rw [if_pos hwin]; exact hs1
        · rw [if_neg hwin]
          cases hpop : alPop (dhMix s dh).skipped_keys ctr with
          | some p =>
              obtain ⟨mk, rest⟩ := p
              dsimp only []
              split
              · exact skInv_pop _ ctr mk rest hs1 hpop
              · exact skInv_pop _ ctr mk rest hs1 hpop
          | none =>
              dsimp only []
              by_cases hgt : ctr > (dhMix s dh).recv_counter
              · rw [if_pos hgt]
                by_cases hfar : ctr - (dhMix s dh).recv_counter > (dhMix s dh).ooo_window
                · rw [if_pos hfar]; exact hs1
                · rw [if_neg hfar]
                  have hs2 : SkInv (precomputeSkippedKeys (dhMix s dh) ctr) :=
                    skInv_precompute _ _ hs1 hgt (by omega)
                  cases hpop2 : alPop (precomputeSkippedKeys (dhMix s dh) ctr).skipped_keys
                      ctr with
                  | some p2 =>
                      obtain ⟨mk2, rest2⟩ := p2
                      dsimp only []
                      split
                      · exact skInv_evict _ (skInv_pop _ ctr mk2 rest2 hs2 hpop2)
                      · exact skInv_pop _ ctr mk2 rest2 hs2 hpop2
                  | none => exact hs2
              · rw [if_neg hgt]
                by_cases hne2 : ctr ≠ (dhMix s dh).recv_counter
                · rw [if_pos hne2]; exact hs1
                · rw [if_neg hne2]
                  push_neg at hne2
                  by_cases htr : prev ≠ (dhMix s dh).transcript
                  · rw [if_pos htr]; exact hs1
                  · rw [if_neg htr]
                    split
                    · apply skInv_evict
                      obtain ⟨hnd, hb, hw⟩ := hs1
                      have hnotmem := alPop_none _ _ hpop
                      unfold SkInv
                      dsimp only []
                      refine ⟨hnd, ?_, hw⟩
                      intro kv hkv
                      have h1 := hb kv hkv
                      have h2 := hnotmem kv hkv
                      exact ⟨by omega, by omega⟩
                    · exact skInv_of_parts _ (dhMix s dh) rfl rfl rfl hs1

/-- the initial state has an empty cache -/
theorem skInv_init (secret ctx dhPriv : Bytes) (w every : Nat) :
    SkInv (init_from_shared_secret secret ctx w every dhPriv) :=
  skInv_nil _ (by simp [init_from_shared_secret])

/-- C8: in every state reachable from `init_from_shared_secret` through
any sequence of `encrypt` and `decrypt` calls, the skipped-key cache
holds at most `2 * ooo_window` entries and every cached counter lies in
`[recv_counter - ooo_window, recv_counter + ooo_window]` -/
theorem c8_skipped_keys_bounded (s : LivingState) (hs : Reach s) :
    s.skipped_keys.length ≤ 2 * s.ooo_window ∧
    ∀ kv ∈ s.skipped_keys,
      s.recv_counter - s.ooo_window ≤ kv.1 ∧
      kv.1 ≤ s.recv_counter + s.ooo_window := by
  have hinv : SkInv s := by
    induction hs with
    | init secret ctx dhPriv w every hlen => exact skInv_init secret ctx dhPriv w every
    | enc s pt aad fresh hs ih => exact skInv_enc s pt aad fresh ih
    | dec s h ct aad hs ih => exact skInv_dec s h ct aad ih
  obtain ⟨hnd, hb, hw⟩ := hinv
  refine ⟨?_, ?_⟩
  · by_cases h0 : s.ooo_window = 0
    · rw [hw h0, h0]
      simp
    · have hsub : (s.skipped_keys.map Prod.fst) ⊆
          List.range' s.recv_counter (s.ooo_window + 1) := by
        intro x hx
        obtain ⟨kv, hkv, hfx⟩ := List.mem_map.mp hx
        have h1 := hb kv hkv
        rw [List.mem_range'_1]
        omega
      have h2 := List.Subperm.length_le (List.subperm_of_subset hnd hsub)
      rw [List.length_map, List.length_range'] at h2
      omega
  · intro kv hkv
    have h1 := hb kv hkv
    exact ⟨by omega, h1.2⟩

/-- the C8 theorem applied at a freshly initialised state -/
theorem c8_skipped_keys_bounded_witness :
    (List.replicate 32 1).length = 32 ∧
    (init_from_shared_secret (List.replicate 32 1) [] 4 16 []).skipped_keys.length ≤
      2 * (init_from_shared_secret (List.replicate 32 1) [] 4 16 []).ooo_window :=
  ⟨by decide, (c8_skipped_keys_bounded _
    (Reach.init (List.replicate 32 1) [] [] 4 16 (by decide))).1⟩
/-!
Claim C3.  First-message roundtrip of the living cipher.
-/

/-- serialization of hash words is four bytes per word -/
theorem wordsToBytes_length (l : List Nat) : (wordsToBytes l).length = 4 * l.length := by
  induction l with
  | nil => rfl
  | cons w rest ih =>
      simp only [wordsToBytes, List.length_cons, ih]
      omega

/-- one compression step always returns the eight-word state -/
theorem compressBlock_length (h : List Nat) (block : Bytes) :
    (compressBlock h block).length = 8 := by
  unfold compressBlock
  dsimp only []
  rcases (sha256K.zip (schedule (bytesToWords block))).foldl roundStep
      (h.getD 0 0, h.getD 1 0, h.getD 2 0, h.getD 3 0, h.getD 4 0, h.getD 5 0, h.getD 6 0,
        h.getD 7 0) with ⟨a, b, c, d, e, f, g, hh⟩
  simp

/-- compression folds keep the eight-word state -/
theorem foldl_compress_length (blocks : List Bytes) :
    ∀ h0 : List Nat, h0.length = 8 → (blocks.foldl compressBlock h0).length = 8 := by
  induction blocks with
  | nil => intro h0 hh; exact hh
  | cons b rest ih => intro h0 hh; exact ih _ (compressBlock_length h0 b)

/-- SHA-256 digests are 32 bytes -/
theorem sha256_length (msg : Bytes) : (sha256 msg).length = 32 := by
  unfold sha256
  dsimp only []
  rw [wordsToBytes_length, foldl_compress_length _ sha256H0 (by rfl)]

/-- the modelled AES-GCM tag is 16 bytes -/
theorem aesgcmTag_length (key nonce pt ad : Bytes) :
    (aesgcmTag key nonce pt ad).length = 16 := by
  unfold aesgcmTag
  rw [List.length_take, sha256_length]
  omega

/-- modelled AEAD roundtrip: decrypting an encryption under the same
key, nonce and AAD returns the plaintext -/
theorem aesgcm_roundtrip (key nonce pt ad : Bytes) :
    aesgcmDecrypt key nonce (aesgcmEncrypt key nonce pt ad) ad = some pt := by
  unfold aesgcmDecrypt aesgcmEncrypt
  dsimp only []
  have htl := aesgcmTag_length key nonce pt ad
  rw [List.length_append, htl]
  rw [if_neg (by omega)]
  have hsub : pt.length + 16 - 16 = pt.length := by omega
  rw [hsub]
  rw [List.take_left, List.drop_left]
  rw [if_pos rfl]

/-- the first call never root-ratchets -/
theorem shouldRootRatchet_zero (every : Nat) : shouldRootRatchet 0 every = false := by
  simp [shouldRootRatchet]

/-- the first header the builder emits, byte for byte -/
theorem buildHeader_first :
    buildHeaderV3 suiteV3 0 (List.replicate 32 0) none = .ok firstMsgHeader := by
  decide

/-- parsing the first header returns the v3 suite, counter 0, the
all-zero transcript and no DH key -/
theorem parse_first :
    parseHeaderV3 firstMsgHeader = .ok (suiteV3, 0, List.replicate 32 0, 0, none) := by
  decide

/-- the first message from a fresh state: no root ratchet, the concrete
header, and the ciphertext under the first send-chain message key -/
theorem lcEncrypt_first (S : LivingState) (pt aad fresh : Bytes)
    (hsend : S.send_counter = 0) (hsuite : S.suite = suiteV3)
    (htr : S.transcript = List.replicate 32 0) :
    (lcEncrypt S pt aad fresh).1 =
      .ok (firstMsgHeader,
        aesgcmEncrypt (ratchet_step S.chain_key_send (suiteV3 ++ ratchetSuffix) 0).2
          (hkdf (ratchet_step S.chain_key_send (suiteV3 ++ ratchetSuffix) 0).2
            (nonceInfoPre ++ u64be 0) 12)
          pt (aad ++ firstMsgHeader)) := by
  unfold lcEncrypt
  dsimp only []
  rw [hsend, shouldRootRatchet_zero]
  have hft : ¬((false : Bool) = true) := by simp
  rw [if_neg hft, if_neg hft]
  rw [hsuite, htr, hsend]
  rw [buildHeader_first]

/-- decrypting the first message with a fresh receiver whose receive
chain holds the sender's send chain commits it in order -/
theorem lcDecrypt_first (R : LivingState) (pt aad c : Bytes)
    (hsuite : R.suite = suiteV3) (hrecv : R.recv_counter = 0)
    (hskip : R.skipped_keys = []) (htr : R.transcript = List.replicate 32 0)
    (hc : c = aesgcmEncrypt (ratchet_step R.chain_key_recv (suiteV3 ++ ratchetSuffix) 0).2
      (hkdf (ratchet_step R.chain_key_recv (suiteV3 ++ ratchetSuffix) 0).2
        (nonceInfoPre ++ u64be 0) 12) pt (aad ++ firstMsgHeader)) :
    (lcDecrypt R firstMsgHeader c aad).1 = .ok pt ∧
    (lcDecrypt R firstMsgHeader c aad).2.recv_counter = R.recv_counter + 1 ∧
    (lcDecrypt R firstMsgHeader c aad).2.transcript =
      update_transcript (List.replicate 32 0) firstMsgHeader c := by
  unfold lcDecrypt
  rw [parse_first]
  dsimp only [dhMix]
  rw [hsuite, hrecv, hskip, htr]
  rw [if_neg (by simp : ¬(suiteV3 ≠ suiteV3))]
  rw [if_neg (by omega : ¬(0 < 0 - R.ooo_window))]
  dsimp only [alPop]
  rw [if_neg (by omega : ¬(0 > 0))]
  rw [if_neg (by simp : ¬((0 : Nat) ≠ 0))]
  rw [if_neg (by simp : ¬(List.replicate 32 0 ≠ List.replicate 32 0))]
  rw [hc, aesgcm_roundtrip]
  dsimp only []
  refine ⟨rfl, ?_, ?_⟩
  · rw [evictSkipped_recv]
  · rw [evictSkipped_transcript]

/-- C3 (partial): for every 32-byte secret, context, plaintext and AAD,
decrypting the first encrypted message with the peer state (same secret
and context, chain keys swapped) returns the plaintext, advances the
receive counter by exactly 1, and sets the transcript to the hash
binding of the first header and ciphertext; whether that hash can equal
the all-zero transcript for some plaintext is not settled here -/
theorem c3_first_message_partial (secret ctx dP pt aad fresh hdr c : Bytes)
    (w every : Nat)
    (henc : (lcEncrypt (init_from_shared_secret secret ctx w every dP) pt aad fresh).1 =
      .ok (hdr, c)) :
    (lcDecrypt (swappedPeer (init_from_shared_secret secret ctx w every dP)) hdr c aad).1 =
      .ok pt ∧
    (lcDecrypt (swappedPeer (init_from_shared_secret secret ctx w every dP))
        hdr c aad).2.recv_counter =
      (swappedPeer (init_from_shared_secret secret ctx w every dP)).recv_counter + 1 ∧
    (lcDecrypt (swappedPeer (init_from_shared_secret secret ctx w every dP))
        hdr c aad).2.transcript =
      update_transcript (List.replicate 32 0) hdr c := by
  have he := lcEncrypt_first (init_from_shared_secret secret ctx w every dP) pt aad fresh
    (by simp [init_from_shared_secret]) (by simp [init_from_shared_secret])
    (by simp [init_from_shared_secret])
  rw [he] at henc
  have h2 := Except.ok.inj henc
  have hhdr : firstMsgHeader = hdr := congrArg Prod.fst h2
  have hcc := congrArg Prod.snd h2
  subst hhdr
  subst hcc
  refine lcDecrypt_first (swappedPeer (init_from_shared_secret secret ctx w every dP))
    pt aad _ ?_ ?_ ?_ ?_ ?_
  · simp [swappedPeer, init_from_shared_secret]
  · simp [swappedPeer, init_from_shared_secret]
  · simp [swappedPeer, init_from_shared_secret]
  · simp [swappedPeer, init_from_shared_secret]
  · simp [swappedPeer]

/-- the spec's concrete scenario: decrypting the first message with the
swapped peer yields `b"hello"`, the receive counter reaches 1, and the
transcript is no longer the all-zero value -/
theorem c3_hello_scenario :
    (lcDecrypt c3R c3Pair.1 c3Pair.2 []).1 = .ok c3Pt ∧
    (lcDecrypt c3R c3Pair.1 c3Pair.2 []).2.recv_counter = 1 ∧
    (lcDecrypt c3R c3Pair.1 c3Pair.2 []).2.transcript ≠ List.replicate 32 0 := by
  decide

end H4
